import Mathlib

/-!
Verification of the AVL-tree ordered map/set crate (`src/map.rs`, `src/map/set.rs`).

The Rust code stores nodes behind raw pointers with parent back-references.
We embed the tree as an inductive datatype carrying the stored height field of
every node (`u16` in Rust, modelled as `Nat`; the code asserts heights stay
below 128, so overflow is unreachable).  Upward pointer walks of the source
(rebalancing from a node to the root, bound resolution by ascending to
ancestors) become the unwinding of structural recursion along the very same
path, and the reified link structure (`linksOf`) recovers the parent/child
pointer graph for the parent-consistency invariant.

Keys are compared through a projection `keyOf : K → α` into a linear order,
mirroring Rust's `Ord` with the possibility that keys comparing equal are
still distinguishable objects (`K` retains its own equality).
-/

namespace Avl

/-- Mirror of `struct Node`/links: `leaf` is an absent link (`None`), `node`
carries left child, key, value, right child and the stored `height` field. -/
inductive Tree (K V : Type) where
  | leaf : Tree K V
  | node (l : Tree K V) (k : K) (v : V) (r : Tree K V) (h : Nat) : Tree K V
deriving DecidableEq

variable {α K V : Type} [LinearOrder α]

/-- Height contribution of a child link: `0` for an absent child, else the
child's stored height plus one.  This is `left_height`/`right_height` in
`map.rs` (lines 832-848) applied to a link. -/
def childH : Tree K V → Nat
  | .leaf => 0
  | .node _ _ _ _ h => h + 1

/-- The left child link of a node (`leaf` when absent). -/
def leftOf : Tree K V → Tree K V
  | .leaf => .leaf
  | .node l _ _ _ _ => l

/-- The right child link of a node (`leaf` when absent). -/
def rightOf : Tree K V → Tree K V
  | .leaf => .leaf
  | .node _ _ _ r _ => r

/-- In-order (sorted) list of entries; the sequence produced by `iter()`. -/
def toList : Tree K V → List (K × V)
  | .leaf => []
  | .node l k v r _ => toList l ++ (k, v) :: toList r

/-- Number of nodes reachable from the root link. -/
def size : Tree K V → Nat
  | .leaf => 0
  | .node l _ _ r _ => size l + size r + 1

/-- Key parts of the in-order entry list. -/
def keyList (keyOf : K → α) (t : Tree K V) : List α :=
  (toList t).map fun p => keyOf p.1

/-- `AvlTreeMap::find` (map.rs lines 443-459): iterative BST descent,
three-way comparison at each node.  Returns the stored key and value of the
node found (the node pointer's payload). -/
def find (keyOf : K → α) (q : α) : Tree K V → Option (K × V)
  | .leaf => none
  | .node l k v r _ =>
    if q < keyOf k then find keyOf q l
    else if keyOf k < q then find keyOf q r
    else some (k, v)

/-- `AvlTreeMap::rotate_left` (map.rs lines 875-902): promote the right child
over the node; heights of the two reshaped nodes are recomputed by
`adjust_height` (max of child-link heights).  No-op when the right child is
absent, as in the source. -/
def rotateLeft : Tree K V → Tree K V
  | .node l k v (.node rl rk rv rr _) _ =>
    let nl := Tree.node l k v rl (max (childH l) (childH rl))
    Tree.node nl rk rv rr (max (childH nl) (childH rr))
  | t => t

/-- `AvlTreeMap::rotate_right` (map.rs lines 914-941), mirror image. -/
def rotateRight : Tree K V → Tree K V
  | .node (.node ll lk lv lr _) k v r _ =>
    let nr := Tree.node lr k v r (max (childH lr) (childH r))
    Tree.node ll lk lv nr (max (childH ll) (childH nr))
  | t => t

/-- `AvlTreeMap::rebalance_node` (map.rs lines 972-999).  If the left
child-link height exceeds the right by more than one, optionally rotate the
left child left (zig-zag case), then rotate the node right; mirror logic for
the right-heavy case; otherwise just store the recomputed height.  Returns
the new subtree and whether a rotation occurred. -/
def rebalanceNode : Tree K V → Tree K V × Bool
  | .leaf => (.leaf, false)
  | .node l k v r h =>
    let lh := childH l
    let rh := childH r
    if rh + 1 < lh then
      let l2 := if childH (leftOf l) < childH (rightOf l) then rotateLeft l else l
      (rotateRight (.node l2 k v r h), true)
    else if lh + 1 < rh then
      let r2 := if childH (rightOf r) < childH (leftOf r) then rotateRight r else r
      (rotateLeft (.node l k v r2 h), true)
    else
      (.node l k v r (max lh rh), false)

/-- Fusion of `find_insert_pos` + `insert_entry_at_vacant_pos` +
`rebalance_once` / `insert_value_at_occupied_pos` (map.rs lines 334-348,
462-487, 714-737, 956-966).  The Boolean is the `rebalance_once` stop flag:
once a level reports `true` (a rotation happened, or the key was found
occupied so no rebalancing runs at all), every level above leaves its node
untouched — exactly the early `break` of the upward pointer walk.  A fresh
leaf is created with stored height 0 and rebalancing starts at its parent
(the first enclosing recursion level).  The `Option V` is the previous value
when the key was already present (whose node keeps its stored key and only
swaps the value). -/
def insertGo (keyOf : K → α) (k : K) (v : V) : Tree K V → Tree K V × Bool × Option V
  | .leaf => (.node .leaf k v .leaf 0, false, none)
  | .node l nk nv r h =>
    if keyOf k < keyOf nk then
      match insertGo keyOf k v l with
      | (l2, true, old) => (.node l2 nk nv r h, true, old)
      | (l2, false, old) =>
        let p := rebalanceNode (.node l2 nk nv r h)
        (p.1, p.2, old)
    else if keyOf nk < keyOf k then
      match insertGo keyOf k v r with
      | (r2, true, old) => (.node l nk nv r2 h, true, old)
      | (r2, false, old) =>
        let p := rebalanceNode (.node l nk nv r2 h)
        (p.1, p.2, old)
    else
      (.node l nk v r h, true, some nv)

/-- `AvlTreeMap` root link plus `num_nodes`. -/
structure Map (K V : Type) where
  root : Tree K V
  numNodes : Nat
deriving DecidableEq

/-- `AvlTreeMap::new` (map.rs lines 137-142). -/
def Map.empty : Map K V := ⟨.leaf, 0⟩

/-- `AvlTreeMap::insert` (map.rs lines 338-348): vacant position increments
`num_nodes` and returns `None`; occupied position swaps the value and
returns the old one. -/
def Map.insert (keyOf : K → α) (m : Map K V) (k : K) (v : V) : Map K V × Option V :=
  match insertGo keyOf k v m.root with
  | (t, _, old) => (⟨t, if old.isSome then m.numNodes else m.numNodes + 1⟩, old)

/-- The successor-extraction loop of `unlink_node` (map.rs lines 749-774):
walk left children from the given subtree; the last node reached (no left
child) is detached by attaching its right child in its place at its parent,
and — matching the post-splice `rebalance(min_child_parent)` walk — every
node from that former parent up along the left spine is passed through
`rebalance_node` as the recursion unwinds.  Returns `none` exactly when the
subtree is an absent link. -/
def popMin : Tree K V → Option (K × V × Tree K V)
  | .leaf => none
  | .node l k v r h =>
    match popMin l with
    | none => some (k, v, r)
    | some (sk, sv, l2) => some (sk, sv, (rebalanceNode (.node l2 k v r h)).1)

/-- `AvlTreeMap::unlink_node` (map.rs lines 746-830) at the unlinked node's
position.  No right child: the left subtree takes the node's place and
rebalancing continues with the ancestors only.  With a right child: the
right subtree's minimum (in-order successor) is spliced into the node's
position; the rebalance walk has already covered the successor's former
parent chain inside `popMin`, and continues here at the successor's new
position (this is also where the walk *starts* when the successor's former
parent was the removed node itself, i.e. when `popMin` returned via its
first branch), then proceeds to the ancestors. -/
def unlink (l : Tree K V) (k : K) (v : V) (r : Tree K V) (h : Nat) : Tree K V :=
  match popMin r with
  | none => l
  | some (sk, sv, r2) => (rebalanceNode (.node l sk sv r2 h)).1

/-- Fusion of the `find` in `remove_entry` with `unlink_node` and the full
`rebalance` walk to the root (map.rs lines 245-254, 739-830, 944-951): when
the key is absent the tree is returned untouched; when present, every
ancestor of the unlinked position is rebalanced on the way out.  Returns the
removed node's stored key and value. -/
def removeGo (keyOf : K → α) (q : α) : Tree K V → Tree K V × Option (K × V)
  | .leaf => (.leaf, none)
  | .node l k v r h =>
    if q < keyOf k then
      match removeGo keyOf q l with
      | (_, none) => (.node l k v r h, none)
      | (l2, some kv) => ((rebalanceNode (.node l2 k v r h)).1, some kv)
    else if keyOf k < q then
      match removeGo keyOf q r with
      | (_, none) => (.node l k v r h, none)
      | (r2, some kv) => ((rebalanceNode (.node l k v r2 h)).1, some kv)
    else
      (unlink l k v r h, some (k, v))

/-- `AvlTreeMap::remove_entry` (map.rs lines 245-254): absent key is a no-op
returning `None`; otherwise `num_nodes` is decremented and the stored
key/value pair returned. -/
def Map.remove (keyOf : K → α) (m : Map K V) (q : α) : Map K V × Option (K × V) :=
  match removeGo keyOf q m.root with
  | (_, none) => (m, none)
  | (t, some kv) => (⟨t, m.numNodes - 1⟩, some kv)

/-- `AvlTreeMap::get` (map.rs lines 177-184). -/
def Map.get (keyOf : K → α) (m : Map K V) (q : α) : Option V :=
  (find keyOf q m.root).map fun p => p.2

/-- `AvlTreeMap::get_key_value` (map.rs lines 203-213): returns the stored
key together with the value. -/
def Map.getKeyValue (keyOf : K → α) (m : Map K V) (q : α) : Option (K × V) :=
  find keyOf q m.root

/-- `AvlTreeMap::len`. -/
def Map.len (m : Map K V) : Nat := m.numNodes

/-- Node skeleton: keys, stored heights and shape, with values erased; two
trees with equal `shape` have identical structure (no node created, moved or
rotated between them). -/
def shape : Tree K V → Tree K Unit
  | .leaf => .leaf
  | .node l k _ r h => .node (shape l) k () (shape r) h

/-- All keys of the tree satisfy `P`. -/
def All (P : K → Prop) : Tree K V → Prop
  | .leaf => True
  | .node l k _ r _ => All P l ∧ P k ∧ All P r

/-- Binary-search-tree ordering: at every node all left-subtree keys are
strictly less and all right-subtree keys strictly greater (invariant 1 of
the data model; `check_consistency` asserts its one-level consequences). -/
def BST (keyOf : K → α) : Tree K V → Prop
  | .leaf => True
  | .node l k _ r _ =>
    All (fun x => keyOf x < keyOf k) l ∧ All (fun x => keyOf k < keyOf x) r ∧
      BST keyOf l ∧ BST keyOf r

/-- Stored heights are correct: each node's `height` field equals the
maximum of its child-link heights (`check_consistency`, map.rs line 426). -/
def HeightOk : Tree K V → Prop
  | .leaf => True
  | .node l _ _ r h => h = max (childH l) (childH r) ∧ HeightOk l ∧ HeightOk r

/-- AVL balance on the stored heights: the child-link heights differ by at
most one at every node (`check_consistency`, map.rs lines 430-431). -/
def BalancedT : Tree K V → Prop
  | .leaf => True
  | .node l _ _ r _ =>
    childH l ≤ childH r + 1 ∧ childH r ≤ childH l + 1 ∧ BalancedT l ∧ BalancedT r

def decAll (P : K → Prop) [DecidablePred P] : (t : Tree K V) → Decidable (All P t)
  | .leaf => isTrue trivial
  | .node l _ _ r _ =>
    haveI : Decidable (All P l) := decAll P l
    haveI : Decidable (All P r) := decAll P r
    inferInstanceAs (Decidable (_ ∧ _ ∧ _))

instance (P : K → Prop) [DecidablePred P] (t : Tree K V) : Decidable (All P t) :=
  decAll P t

def decBST (keyOf : K → α) : (t : Tree K V) → Decidable (BST keyOf t)
  | .leaf => isTrue trivial
  | .node l _ _ r _ =>
    haveI : Decidable (BST keyOf l) := decBST keyOf l
    haveI : Decidable (BST keyOf r) := decBST keyOf r
    inferInstanceAs (Decidable (_ ∧ _ ∧ _ ∧ _))

instance (keyOf : K → α) (t : Tree K V) : Decidable (BST keyOf t) :=
  decBST keyOf t

def decHeightOk : (t : Tree K V) → Decidable (HeightOk t)
  | .leaf => isTrue trivial
  | .node l _ _ r _ =>
    haveI : Decidable (HeightOk l) := decHeightOk l
    haveI : Decidable (HeightOk r) := decHeightOk r
    inferInstanceAs (Decidable (_ ∧ _ ∧ _))

instance (t : Tree K V) : Decidable (HeightOk t) := decHeightOk t

def decBalancedT : (t : Tree K V) → Decidable (BalancedT t)
  | .leaf => isTrue trivial
  | .node l _ _ r _ =>
    haveI : Decidable (BalancedT l) := decBalancedT l
    haveI : Decidable (BalancedT r) := decBalancedT r
    inferInstanceAs (Decidable (_ ∧ _ ∧ _ ∧ _))

instance (t : Tree K V) : Decidable (BalancedT t) := decBalancedT t

/-- The height invariants together. -/
def Good (t : Tree K V) : Prop := HeightOk t ∧ BalancedT t

instance (t : Tree K V) : Decidable (Good t) :=
  inferInstanceAs (Decidable (_ ∧ _))

/-- A range bound, mirror of `std::ops::Bound` as consumed by `find_range`. -/
inductive RBound (α : Type) where
  | unbounded
  | included (a : α)
  | excluded (a : α)
deriving DecidableEq

/-- The guard match at the top of `find_range` (map.rs lines 496-513): both
bounds excluded and equal, or a start key greater than the end key, is a
panic. -/
def rangeInvalid : RBound α → RBound α → Bool
  | .excluded s, .excluded e => decide (s = e) || decide (e < s)
  | .included s, .included e => decide (e < s)
  | .excluded s, .included e => decide (e < s)
  | .included s, .excluded e => decide (e < s)
  | _, _ => false

/-- `AvlTreeMap::find_first` (map.rs lines 698-704): walk left links. -/
def findFirstNode : Tree K V → Option (K × V)
  | .leaf => none
  | .node l k v _ _ =>
    match findFirstNode l with
    | none => some (k, v)
    | some p => some p

/-- `AvlTreeMap::find_last` (map.rs lines 706-712): walk right links. -/
def findLastNode : Tree K V → Option (K × V)
  | .leaf => none
  | .node _ k v r _ =>
    match findLastNode r with
    | none => some (k, v)
    | some p => some p

/-- `find_start_bound_included` (map.rs lines 564-596).  The source descends
to the frontier (equal keys stop; an absent link stops) and then ascends
through parent pointers until a node with `key ≤ node.key` is found.  The
only ancestors that can satisfy the test are those the descent left through
their *left* link, so the walk resolves to the nearest such ancestor; `acc`
carries it while the recursion descends, making the ascent implicit. -/
def fsbIncGo (keyOf : K → α) (q : α) : Tree K V → Option K → Option K
  | .leaf, acc => acc
  | .node l k _ r _, acc =>
    if q < keyOf k then fsbIncGo keyOf q l (some k)
    else if keyOf k < q then fsbIncGo keyOf q r acc
    else some k

def findStartBoundIncluded (keyOf : K → α) (q : α) (t : Tree K V) : Option K :=
  fsbIncGo keyOf q t none

/-- `find_start_bound_excluded` (map.rs lines 598-629): equal keys descend
right, the ascent stops at `key < node.key`. -/
def fsbExcGo (keyOf : K → α) (q : α) : Tree K V → Option K → Option K
  | .leaf, acc => acc
  | .node l k _ r _, acc =>
    if q < keyOf k then fsbExcGo keyOf q l (some k)
    else fsbExcGo keyOf q r acc

def findStartBoundExcluded (keyOf : K → α) (q : α) (t : Tree K V) : Option K :=
  fsbExcGo keyOf q t none

/-- `find_end_bound_included` (map.rs lines 631-663): the ascent stops at
`key ≥ node.key`, i.e. at the nearest ancestor left through its right link. -/
def febIncGo (keyOf : K → α) (q : α) : Tree K V → Option K → Option K
  | .leaf, acc => acc
  | .node l k _ r _, acc =>
    if q < keyOf k then febIncGo keyOf q l acc
    else if keyOf k < q then febIncGo keyOf q r (some k)
    else some k

def findEndBoundIncluded (keyOf : K → α) (q : α) (t : Tree K V) : Option K :=
  febIncGo keyOf q t none

/-- `find_end_bound_excluded` (map.rs lines 665-696): equal keys descend
left, the ascent stops at `key > node.key`. -/
def febExcGo (keyOf : K → α) (q : α) : Tree K V → Option K → Option K
  | .leaf, acc => acc
  | .node l k _ r _, acc =>
    if keyOf k < q then febExcGo keyOf q r (some k)
    else febExcGo keyOf q l acc

def findEndBoundExcluded (keyOf : K → α) (q : α) (t : Tree K V) : Option K :=
  febExcGo keyOf q t none

/-- The `first` resolution of `find_range` (map.rs lines 515-519): the match
over the start bound. -/
def resolveStart (keyOf : K → α) (sb : RBound α) (t : Tree K V) : Option K :=
  match sb with
  | .unbounded => (findFirstNode t).map fun p => p.1
  | .included q => findStartBoundIncluded keyOf q t
  | .excluded q => findStartBoundExcluded keyOf q t

/-- The `last` resolution of `find_range` (map.rs lines 521-528): the match
over the end bound. -/
def resolveEnd (keyOf : K → α) (eb : RBound α) (t : Tree K V) : Option K :=
  match eb with
  | .unbounded => (findLastNode t).map fun p => p.1
  | .included q => findEndBoundIncluded keyOf q t
  | .excluded q => findEndBoundExcluded keyOf q t

/-- `AvlTreeMap::find_range` (map.rs lines 489-543): the panic guard, the
two independent bound resolutions (the end bound only computed when the
start resolved), and the empty-range normalisation (`first.key > last.key`
— or a missing endpoint — collapses to the empty pair).  `Except.error` is
the panic. -/
def findRange (keyOf : K → α) (sb eb : RBound α) (t : Tree K V) :
    Except Unit (Option K × Option K) :=
  if rangeInvalid sb eb then .error () else
    match resolveStart keyOf sb t with
    | none => .ok (none, none)
    | some f =>
      match resolveEnd keyOf eb t with
      | none => .ok (none, none)
      | some l => if keyOf l < keyOf f then .ok (none, none) else .ok (some f, some l)

/-- The advance of `NodeIter::pop_first` (map.rs lines 1778-1813) expressed
on the node with key part `q`: the next node is the smallest child of the
right subtree, or, with no right subtree, the nearest ancestor reached from
a left child during the upward walk (`acc`, carried down the search path
exactly as in `fsbIncGo`); `none` where the source would panic with
"Invalid node range" (no such ancestor) or dereference a node absent from
the tree. -/
def succEntry (keyOf : K → α) (q : α) : Tree K V → Option (K × V) → Option (K × V)
  | .leaf, _ => none
  | .node l k v r _, acc =>
    if q < keyOf k then succEntry keyOf q l (some (k, v))
    else if keyOf k < q then succEntry keyOf q r acc
    else
      match r with
      | .leaf => acc
      | _ => findFirstNode r

/-- One `pop_first` step of the narrowing range `[first, last]` (map.rs
lines 1778-1813): key parts identify nodes (the tree is a search tree, so
pointer equality agrees with key-part equality).  Yields the popped entry
and the narrowed range; `Except.error` is the "Invalid node range" panic. -/
def popFirstIter (keyOf : K → α) (t : Tree K V) :
    Option α × Option α → Except Unit (Option ((K × V) × (Option α × Option α)))
  | (none, _) => .ok none
  | (some f, lastOpt) =>
    match find keyOf f t with
    | none => .error ()
    | some entry =>
      if lastOpt = some f then .ok (some (entry, (none, none)))
      else
        match succEntry keyOf f t none with
        | none => .error ()
        | some nxt => .ok (some (entry, (some (keyOf nxt.1), lastOpt)))

/-- Repeated `pop_first` until exhaustion, with explicit fuel (the source's
loop is bounded by the tree size; running out of fuel is reported as an
error so the no-error theorem also bounds the number of steps). -/
def iterRange (keyOf : K → α) (t : Tree K V) :
    Nat → Option α × Option α → Except Unit (List (K × V))
  | 0, (none, _) => .ok []
  | 0, (some _, _) => .error ()
  | fuel + 1, st =>
    match popFirstIter keyOf t st with
    | .error _ => .error ()
    | .ok none => .ok []
    | .ok (some (e, st2)) => (iterRange keyOf t fuel st2).map fun es => e :: es

/-- `reset_range_start_bound_included` (map.rs lines 545-562) in terms of
the remaining sorted sequence of a full range: the new `first` is the first
tree node with key part `≥ q` (see `findStartBoundIncluded`), which on the
remaining suffix of the sorted element list is exactly dropping the strictly
smaller prefix; the empty-range normalisation is the list becoming empty. -/
def dropLt (keyOf : K → α) (q : α) (xs : List K) : List K :=
  xs.dropWhile fun x => decide (keyOf x < q)

/-- `Intersection::next` (set.rs lines 544-570) unrolled to the full yielded
sequence: equal heads emit the left-hand element and advance both sides;
otherwise the lagging side's range restarts its lower bound (inclusive) at
the other side's current element (`dropLt`, the `reset` seek-ahead). -/
def interList (keyOf : K → α) : List K → List K → List K
  | [], _ => []
  | _ :: _, [] => []
  | a :: xs, b :: ys =>
    if keyOf a < keyOf b then
      interList keyOf (dropLt keyOf (keyOf b) (a :: xs)) (b :: ys)
    else if keyOf b < keyOf a then
      interList keyOf (a :: xs) (dropLt keyOf (keyOf a) (b :: ys))
    else a :: interList keyOf xs ys
  termination_by xs ys => xs.length + ys.length
  decreasing_by
  · simp only [dropLt, List.dropWhile_cons, decide_eq_true_eq, if_pos ‹keyOf a < keyOf b›,
      List.length_cons]
    have := (List.dropWhile_sublist (l := xs)
      (p := fun x => decide (keyOf x < keyOf b))).length_le
    omega
  · simp only [dropLt, List.dropWhile_cons, decide_eq_true_eq, if_pos ‹keyOf b < keyOf a›,
      List.length_cons]
    have := (List.dropWhile_sublist (l := ys)
      (p := fun x => decide (keyOf x < keyOf a))).length_le
    omega
  · simp only [List.length_cons]; omega

/-- `Union::next` (set.rs lines 482-512) unrolled to the full yielded
sequence: emit the smaller head, or the left-hand element when the heads
compare equal (advancing both sides). -/
def unionList (keyOf : K → α) : List K → List K → List K
  | [], ys => ys
  | xs, [] => xs
  | a :: xs, b :: ys =>
    if keyOf a < keyOf b then a :: unionList keyOf xs (b :: ys)
    else if keyOf b < keyOf a then b :: unionList keyOf (a :: xs) ys
    else a :: unionList keyOf xs ys
  termination_by xs ys => xs.length + ys.length

/-- `impl PartialEq for AvlTreeMap::eq` (map.rs lines 1167-1171),
verbatim: `self.len() == self.len() && self.iter().zip(other).all(..)`.
Note the left-hand length is compared with itself, and `zip` truncates to
the shorter sequence. -/
def mapEq [DecidableEq K] [DecidableEq V] (a b : Map K V) : Bool :=
  (a.len == a.len) && ((toList a.root).zip (toList b.root)).all fun p => p.1 == p.2

/-- The key part at a link, i.e. the address-to-key reading of an optional
node pointer. -/
def rootKey (keyOf : K → α) : Tree K V → Option α
  | .leaf => none
  | .node _ k _ _ _ => some (keyOf k)

/-- One node of the reified pointer graph: key part standing for the node's
address, plus its `parent`, `left` and `right` links. -/
structure LinkEntry (α : Type) where
  key : α
  parent : Option α
  left : Option α
  right : Option α
deriving DecidableEq

/-- The pointer graph denoted by the tree: every reachable node with its
parent back-reference (the argument link) and child links. -/
def linksOf (keyOf : K → α) : Tree K V → Option α → List (LinkEntry α)
  | .leaf, _ => []
  | .node l k _ r _, p =>
    ⟨keyOf k, p, rootKey keyOf l, rootKey keyOf r⟩ ::
      (linksOf keyOf l (some (keyOf k)) ++ linksOf keyOf r (some (keyOf k)))

/-- Node lookup by address (key part) in the reified pointer graph. -/
def lookupLink (ls : List (LinkEntry α)) (q : α) : Option (LinkEntry α) :=
  ls.find? fun e => decide (e.key = q)

/-- The parent assertions of `check_consistency` (map.rs lines 398-399,
410-411, 418-419) for one entry of the pointer graph: each present child
names this node as its parent, and the parent (when present) names this
node as one of its children. -/
def linkOkB (ls : List (LinkEntry α)) (e : LinkEntry α) : Bool :=
  (match e.left with
   | none => true
   | some c =>
     match lookupLink ls c with
     | none => false
     | some e2 => e2.parent == some e.key) &&
  (match e.right with
   | none => true
   | some c =>
     match lookupLink ls c with
     | none => false
     | some e2 => e2.parent == some e.key) &&
  (match e.parent with
   | none => true
   | some p =>
     match lookupLink ls p with
     | none => false
     | some e2 => e2.left == some e.key || e2.right == some e.key)

/-- Parent-pointer consistency of the tree's reified pointer graph, plus
the root's absent parent (map.rs lines 398-399). -/
def ParentConsistent (keyOf : K → α) (t : Tree K V) : Prop :=
  (∀ e ∈ linksOf keyOf t none, linkOkB (linksOf keyOf t none) e = true) ∧
    (∀ e ∈ linksOf keyOf t none, e.parent = none → some e.key = rootKey keyOf t)

instance (keyOf : K → α) (t : Tree K V) : Decidable (ParentConsistent keyOf t) :=
  inferInstanceAs (Decidable (_ ∧ _))

/-- A mutating operation on the map. -/
inductive Op (α K V : Type) where
  | ins (k : K) (v : V)
  | del (q : α)

/-- Apply one operation (`insert` / `remove`). -/
def Map.step (keyOf : K → α) (m : Map K V) : Op α K V → Map K V
  | .ins k v => (m.insert keyOf k v).1
  | .del q => (m.remove keyOf q).1

/-- Run a sequence of operations from the empty map. -/
def Map.run (keyOf : K → α) (ops : List (Op α K V)) : Map K V :=
  ops.foldl (Map.step keyOf) Map.empty

/-- The five structural invariants of the data model: BST ordering,
parent-pointer consistency, AVL balance, correct stored heights, and
`len()` equal to the reachable node count. -/
def Inv (keyOf : K → α) (m : Map K V) : Prop :=
  BST keyOf m.root ∧ ParentConsistent keyOf m.root ∧ BalancedT m.root ∧
    HeightOk m.root ∧ m.numNodes = size m.root

instance (keyOf : K → α) (m : Map K V) : Decidable (Inv keyOf m) :=
  inferInstanceAs (Decidable (_ ∧ _ ∧ _ ∧ _ ∧ _))

/-- Insertion into a sorted association list, the list-level specification
of a vacant-position insert. -/
def insSorted (keyOf : K → α) (k : K) (v : V) : List (K × V) → List (K × V)
  | [] => [(k, v)]
  | p :: ps =>
    if keyOf k < keyOf p.1 then (k, v) :: p :: ps else p :: insSorted keyOf k v ps

/-- An `AvlTreeSet` is a map with unit values (set.rs line 27); building one
by inserting each listed element (`FromIterator`). -/
def buildSet (keyOf : K → α) (xs : List K) : Map K Unit :=
  xs.foldl (fun m x => (m.insert keyOf x ()).1) Map.empty

/-- The elements `0, 2, 4, …, 2N` of scenario C. -/
def evens (N : Nat) : List Nat := (List.range (N + 1)).map fun i => 2 * i

/-- The elements `0, 3, 6, …, 3N` of scenario C. -/
def threes (N : Nat) : List Nat := (List.range (N + 1)).map fun i => 3 * i

/-- The multiples of 6 up to `2N`, in ascending order. -/
def sixes (N : Nat) : List Nat := (List.range (N / 3 + 1)).map fun i => 6 * i

/-! ### Basic facts about the embedding -/

theorem toList_node (l : Tree K V) (k : K) (v : V) (r : Tree K V) (h : Nat) :
    toList (.node l k v r h) = toList l ++ (k, v) :: toList r := rfl

theorem keyList_node (keyOf : K → α) (l : Tree K V) (k : K) (v : V) (r : Tree K V) (h : Nat) :
    keyList keyOf (.node l k v r h) = keyList keyOf l ++ keyOf k :: keyList keyOf r := by
  simp [keyList, toList]

theorem size_eq_length (t : Tree K V) : size t = (toList t).length := by
  induction t with
  | leaf => rfl
  | node l k v r h ihl ihr => simp [size, toList, ihl, ihr]; omega

theorem all_iff (P : K → Prop) (t : Tree K V) :
    All P t ↔ ∀ p ∈ toList t, P p.1 := by
  induction t with
  | leaf => simp [All, toList]
  | node l k v r h ihl ihr =>
    simp only [All, toList, List.mem_append, List.mem_cons, ihl, ihr]
    constructor
    · rintro ⟨h1, h2, h3⟩ p hp
      rcases hp with hp | hp | hp
      · exact h1 p hp
      · rw [hp]; exact h2
      · exact h3 p hp
    · intro hall
      exact ⟨fun p hp => hall p (Or.inl hp), hall (k, v) (Or.inr (Or.inl rfl)),
        fun p hp => hall p (Or.inr (Or.inr hp))⟩

theorem bst_iff_sorted (keyOf : K → α) (t : Tree K V) :
    BST keyOf t ↔ (keyList keyOf t).Sorted (· < ·) := by
  induction t with
  | leaf => simp [BST, keyList, toList]
  | node l k v r h ihl ihr =>
    rw [keyList_node]
    simp only [BST, ihl, ihr, List.Sorted, List.pairwise_append, List.pairwise_cons,
      all_iff, keyList, List.mem_map, List.mem_cons]
    constructor
    · rintro ⟨hl, hr, sl, sr⟩
      refine ⟨sl, ⟨?_, sr⟩, ?_⟩
      · rintro y ⟨p, hp, rfl⟩; exact hr p hp
      · rintro x ⟨p, hp, rfl⟩ y hy
        rcases hy with rfl | ⟨q, hq, rfl⟩
        · exact hl p hp
        · exact lt_trans (hl p hp) (hr q hq)
    · rintro ⟨sl, ⟨hk, sr⟩, hcross⟩
      refine ⟨fun p hp => ?_, fun p hp => ?_, sl, sr⟩
      · exact hcross (keyOf p.1) ⟨p, hp, rfl⟩ (keyOf k) (Or.inl rfl)
      · exact hk (keyOf p.1) ⟨p, hp, rfl⟩

theorem bst_keys_nodup (keyOf : K → α) (t : Tree K V) (hb : BST keyOf t) :
    (keyList keyOf t).Nodup := by
  have := (bst_iff_sorted keyOf t).1 hb
  exact List.Sorted.nodup this

theorem childH_leaf : childH (Tree.leaf : Tree K V) = 0 := rfl

theorem childH_node (l : Tree K V) (k : K) (v : V) (r : Tree K V) (h : Nat) :
    childH (.node l k v r h) = h + 1 := rfl

/-! ### Rotations -/

theorem rotateLeft_toList (t : Tree K V) : toList (rotateLeft t) = toList t := by
  cases t with
  | leaf => rfl
  | node l k v r h =>
    cases r with
    | leaf => rfl
    | node rl rk rv rr rh => simp [rotateLeft, toList]

theorem rotateRight_toList (t : Tree K V) : toList (rotateRight t) = toList t := by
  cases t with
  | leaf => rfl
  | node l k v r h =>
    cases l with
    | leaf => rfl
    | node ll lk lv lr lh => simp [rotateRight, toList]

theorem good_node_iff (l : Tree K V) (k : K) (v : V) (r : Tree K V) (h : Nat) :
    Good (.node l k v r h) ↔
      h = max (childH l) (childH r) ∧ childH l ≤ childH r + 1 ∧
        childH r ≤ childH l + 1 ∧ Good l ∧ Good r := by
  simp only [Good, HeightOk, BalancedT]
  tauto

theorem rebalanceNode_toList (l : Tree K V) (k : K) (v : V) (r : Tree K V) (h : Nat) :
    toList (rebalanceNode (.node l k v r h)).1 = toList l ++ (k, v) :: toList r := by
  show toList (rebalanceNode (Tree.node l k v r h)).1 = _
  unfold rebalanceNode
  dsimp only
  split_ifs <;>
    simp only [rotateRight_toList, rotateLeft_toList, toList_node]

theorem rebalanceNode_of_balanced (l : Tree K V) (k : K) (v : V) (r : Tree K V) (h : Nat)
    (h1 : childH l ≤ childH r + 1) (h2 : childH r ≤ childH l + 1) :
    rebalanceNode (.node l k v r h) = (.node l k v r (max (childH l) (childH r)), false) := by
  unfold rebalanceNode
  dsimp only
  split_ifs <;> first | rfl | omega

theorem rebalanceNode_false_iff (l : Tree K V) (k : K) (v : V) (r : Tree K V) (h : Nat) :
    (rebalanceNode (.node l k v r h)).2 = false ↔
      childH l ≤ childH r + 1 ∧ childH r ≤ childH l + 1 := by
  unfold rebalanceNode
  dsimp only
  split_ifs with c1 c2 <;> simp <;> omega

/-- The height invariants are restored by `rebalance_node` from any
single-update imbalance (at most 2, the source's `debug_assert`): the
result is `Good`, its height is the adjusted height or one less, and in
the imbalance-2 case with an untilted taller child excluded (which a
single insertion cannot produce) the height shrinks back, absorbing the
growth. -/
theorem rebalanceNode_good (l : Tree K V) (k : K) (v : V) (r : Tree K V) (h : Nat)
    (hgl : Good l) (hgr : Good r)
    (h1 : childH l ≤ childH r + 2) (h2 : childH r ≤ childH l + 2) :
    Good (rebalanceNode (.node l k v r h)).1 ∧
      max (childH l) (childH r) ≤ childH (rebalanceNode (.node l k v r h)).1 ∧
      childH (rebalanceNode (.node l k v r h)).1 ≤ max (childH l) (childH r) + 1 ∧
      (childH l = childH r + 2 → childH (leftOf l) ≠ childH (rightOf l) →
        childH (rebalanceNode (.node l k v r h)).1 = childH r + 2) ∧
      (childH r = childH l + 2 → childH (leftOf r) ≠ childH (rightOf r) →
        childH (rebalanceNode (.node l k v r h)).1 = childH l + 2) := by
  unfold rebalanceNode
  dsimp only
  split_ifs with hA hzig hB hzag
  · -- left-heavy, left child tilted right: rotate it left first (zig-zag)
    obtain ⟨hgr1, hgr2⟩ := hgr
    cases l with
    | leaf => simp [childH] at hA
    | node ll lk lv lr lh =>
      rw [good_node_iff] at hgl
      obtain ⟨hlh, hbl1, hbl2, ⟨hgll1, hgll2⟩, hglr⟩ := hgl
      simp only [leftOf, rightOf] at hzig
      cases lr with
      | leaf => simp [childH] at hzig
      | node lrl lrk lrv lrr lrh =>
        rw [good_node_iff] at hglr
        obtain ⟨hlrh, hblr1, hblr2, ⟨hglrl1, hglrl2⟩, hglrr1, hglrr2⟩ := hglr
        simp only [childH_node, childH_leaf] at *
        simp only [rotateLeft, rotateRight, childH_node, childH_leaf, leftOf, rightOf,
          good_node_iff, ne_eq]
        repeat' apply And.intro
        all_goals first | assumption | trivial | (intros; omega)
  · -- left-heavy, zig-zig: single right rotation
    obtain ⟨hgr1, hgr2⟩ := hgr
    cases l with
    | leaf => simp [childH] at hA
    | node ll lk lv lr lh =>
      rw [good_node_iff] at hgl
      obtain ⟨hlh, hbl1, hbl2, ⟨hgll1, hgll2⟩, hglr1, hglr2⟩ := hgl
      simp only [leftOf, rightOf] at hzig
      simp only [childH_node, childH_leaf] at *
      simp only [rotateRight, childH_node, childH_leaf, leftOf, rightOf, good_node_iff,
        ne_eq]
      repeat' apply And.intro
      all_goals first | assumption | trivial | (intros; omega)
  · -- right-heavy, right child tilted left: rotate it right first (zig-zag)
    obtain ⟨hgl1, hgl2⟩ := hgl
    cases r with
    | leaf => simp [childH] at hB
    | node rl rk rv rr rh =>
      rw [good_node_iff] at hgr
      obtain ⟨hrh, hbr1, hbr2, ⟨hgrl, hgrr1, hgrr2⟩⟩ := hgr
      simp only [leftOf, rightOf] at hzag
      cases rl with
      | leaf => simp [childH] at hzag
      | node rll rlk rlv rlr rlh =>
        rw [good_node_iff] at hgrl
        obtain ⟨hrlh, hbrl1, hbrl2, ⟨hgrll1, hgrll2⟩, hgrlr1, hgrlr2⟩ := hgrl
        simp only [childH_node, childH_leaf] at *
        simp only [rotateLeft, rotateRight, childH_node, childH_leaf, leftOf, rightOf,
          good_node_iff, ne_eq]
        repeat' apply And.intro
        all_goals first | assumption | trivial | (intros; omega)
  · -- right-heavy, zig-zig: single left rotation
    obtain ⟨hgl1, hgl2⟩ := hgl
    cases r with
    | leaf => simp [childH] at hB
    | node rl rk rv rr rh =>
      rw [good_node_iff] at hgr
      obtain ⟨hrh, hbr1, hbr2, ⟨hgrl1, hgrl2⟩, hgrr1, hgrr2⟩ := hgr
      simp only [leftOf, rightOf] at hzag
      simp only [childH_node, childH_leaf] at *
      simp only [rotateLeft, childH_node, childH_leaf, leftOf, rightOf, good_node_iff,
        ne_eq]
      repeat' apply And.intro
      all_goals first | assumption | trivial | (intros; omega)
  · -- already balanced: adjust the stored height only
    obtain ⟨hgl1, hgl2⟩ := hgl
    obtain ⟨hgr1, hgr2⟩ := hgr
    simp only [childH_node, childH_leaf, good_node_iff, ne_eq]
    repeat' apply And.intro
    all_goals first | assumption | trivial | (intros; omega)

/-! ### Sorted-insertion list lemmas -/

theorem insSorted_append_left (keyOf : K → α) (k : K) (v : V) (p : K × V)
    (A B : List (K × V)) (hk : keyOf k < keyOf p.1) :
    insSorted keyOf k v (A ++ p :: B) = insSorted keyOf k v A ++ p :: B := by
  induction A with
  | nil => simp [insSorted, hk]
  | cons a A ih =>
    simp only [List.cons_append, insSorted]
    split_ifs <;> simp [ih]

theorem insSorted_append_right (keyOf : K → α) (k : K) (v : V) (p : K × V)
    (A B : List (K × V)) (hA : ∀ a ∈ A, keyOf a.1 < keyOf k) (hp : keyOf p.1 < keyOf k) :
    insSorted keyOf k v (A ++ p :: B) = A ++ p :: insSorted keyOf k v B := by
  induction A with
  | nil => simp [insSorted, not_lt_of_gt hp]
  | cons a A ih =>
    have ha := hA a (List.mem_cons_self a A)
    simp only [List.cons_append, insSorted, if_neg (not_lt_of_gt ha)]
    simp [ih fun x hx => hA x (List.mem_cons_of_mem a hx)]

theorem insSorted_length (keyOf : K → α) (k : K) (v : V) (l : List (K × V)) :
    (insSorted keyOf k v l).length = l.length + 1 := by
  induction l with
  | nil => rfl
  | cons p ps ih =>
    simp only [insSorted]
    split_ifs <;> simp [ih]

theorem insSorted_mem (keyOf : K → α) (k : K) (v : V) (l : List (K × V)) (x : K × V) :
    x ∈ insSorted keyOf k v l ↔ x = (k, v) ∨ x ∈ l := by
  induction l with
  | nil => simp [insSorted]
  | cons p ps ih =>
    simp only [insSorted]
    split_ifs <;> simp [ih] <;> tauto

theorem insSorted_keys_sorted (keyOf : K → α) (k : K) (v : V) (l : List (K × V))
    (hs : (l.map fun p => keyOf p.1).Sorted (· < ·))
    (hn : keyOf k ∉ l.map fun p => keyOf p.1) :
    ((insSorted keyOf k v l).map fun p => keyOf p.1).Sorted (· < ·) := by
  induction l with
  | nil => simp [insSorted]
  | cons p ps ih =>
    simp only [List.map_cons, List.sorted_cons] at hs
    obtain ⟨hp, hps⟩ := hs
    simp only [List.map_cons, List.mem_cons] at hn
    push_neg at hn
    obtain ⟨hnp, hnps⟩ := hn
    simp only [insSorted]
    split_ifs with hlt
    · simp only [List.map_cons, List.sorted_cons]
      refine ⟨?_, hp, hps⟩
      intro b hb
      simp only [List.mem_cons] at hb
      rcases hb with rfl | hb
      · exact hlt
      · exact lt_trans hlt (hp b hb)
    · have hgt : keyOf p.1 < keyOf k := by
        rcases lt_trichotomy (keyOf k) (keyOf p.1) with h | h | h
        · exact absurd h hlt
        · exact absurd h hnp
        · exact h
      simp only [List.map_cons, List.sorted_cons]
      refine ⟨?_, ih hps hnps⟩
      intro b hb
      simp only [List.mem_map] at hb
      obtain ⟨q, hq, rfl⟩ := hb
      rcases (insSorted_mem keyOf k v ps q).1 hq with rfl | hq2
      · exact hgt
      · exact hp (keyOf q.1) (List.mem_map_of_mem _ hq2)

/-! ### Lemmas about `find` -/

theorem find_some_mem (keyOf : K → α) (q : α) (t : Tree K V) (e : K × V)
    (hf : find keyOf q t = some e) : e ∈ toList t ∧ keyOf e.1 = q := by
  induction t with
  | leaf => simp [find] at hf
  | node l k v r h ihl ihr =>
    simp only [find] at hf
    split_ifs at hf with h1 h2
    · obtain ⟨he, hk⟩ := ihl hf
      exact ⟨by simp [toList_node, he], hk⟩
    · obtain ⟨he, hk⟩ := ihr hf
      exact ⟨by simp [toList_node, he], hk⟩
    · cases hf
      exact ⟨by simp [toList_node], le_antisymm (not_lt.mp h1) (not_lt.mp h2)⟩

theorem find_isSome_of_mem (keyOf : K → α) (t : Tree K V) (e : K × V)
    (hb : BST keyOf t) (he : e ∈ toList t) : find keyOf (keyOf e.1) t ≠ none := by
  induction t with
  | leaf => simp [toList] at he
  | node l k v r h ihl ihr =>
    obtain ⟨hal, har, hbl, hbr⟩ := hb
    simp only [toList_node, List.mem_append, List.mem_cons] at he
    simp only [find]
    rcases he with he | he | he
    · have := (all_iff _ l).1 hal e he
      rw [if_pos this]
      exact ihl hbl he
    · subst he
      simp
    · have := (all_iff _ r).1 har e he
      rw [if_neg (not_lt_of_gt this), if_pos this]
      exact ihr hbr he

theorem find_none_not_mem (keyOf : K → α) (q : α) (t : Tree K V)
    (hb : BST keyOf t) (hf : find keyOf q t = none) : q ∉ keyList keyOf t := by
  intro hmem
  simp only [keyList, List.mem_map] at hmem
  obtain ⟨e, he, rfl⟩ := hmem
  exact find_isSome_of_mem keyOf t e hb he hf

theorem find_mem_unique (keyOf : K → α) (t : Tree K V) (e : K × V)
    (hb : BST keyOf t) (he : e ∈ toList t) : find keyOf (keyOf e.1) t = some e := by
  induction t with
  | leaf => simp [toList] at he
  | node l k v r h ihl ihr =>
    obtain ⟨hal, har, hbl, hbr⟩ := hb
    simp only [toList_node, List.mem_append, List.mem_cons] at he
    simp only [find]
    rcases he with he | he | he
    · rw [if_pos ((all_iff _ l).1 hal e he)]
      exact ihl hbl he
    · subst he
      simp
    · have := (all_iff _ r).1 har e he
      rw [if_neg (not_lt_of_gt this), if_pos this]
      exact ihr hbr he

/-! ### Insertion -/

/-- Occupied insert (map.rs lines 730-737): the found node keeps its stored
key, only its value is swapped; the old value is returned, and the node
skeleton (keys, shape, stored heights) is untouched — no node is created or
moved and no rotation occurs. -/
theorem insertGo_found (keyOf : K → α) (k : K) (v : V) (t : Tree K V) (k₀ : K) (w : V)
    (hf : find keyOf (keyOf k) t = some (k₀, w)) :
    ∃ t', insertGo keyOf k v t = (t', true, some w) ∧ shape t' = shape t ∧
      ∃ A B, toList t = A ++ (k₀, w) :: B ∧ toList t' = A ++ (k₀, v) :: B := by
  induction t with
  | leaf => simp [find] at hf
  | node l nk nv r h ihl ihr =>
    simp only [find] at hf
    simp only [insertGo]
    split_ifs at hf with h1 h2
    · rw [if_pos h1]
      obtain ⟨l2, hl2, hsh, A, B, hA, hB⟩ := ihl hf
      refine ⟨.node l2 nk nv r h, by rw [hl2], by simp [shape, hsh], A,
        B ++ (nk, nv) :: toList r, ?_, ?_⟩
      · simp [toList_node, hA]
      · simp [toList_node, hB]
    · rw [if_neg h1, if_pos h2]
      obtain ⟨r2, hr2, hsh, A, B, hA, hB⟩ := ihr hf
      refine ⟨.node l nk nv r2 h, by rw [hr2], by simp [shape, hsh],
        toList l ++ (nk, nv) :: A, B, ?_, ?_⟩
      · simp [toList_node, hA]
      · simp [toList_node, hB]
    · rw [if_neg h1, if_neg h2]
      simp only [Option.some.injEq, Prod.mk.injEq] at hf
      obtain ⟨rfl, rfl⟩ := hf
      exact ⟨.node l nk v r h, rfl, by simp [shape], toList l, toList r, rfl, rfl⟩

/-- Vacant insert (map.rs lines 714-728, 956-966): a fresh leaf with stored
height 0 is spliced into the recorded slot and `rebalance_once` walks up
from the leaf's parent, stopping after the first rotation.  The height
invariants hold afterwards, the entry list is the sorted insertion, the
subtree height grows by at most one, and if the walk stopped at a rotation
the growth has been absorbed (final height = original height).  A subtree
that did grow is tilted (its children differ in height) unless it is the
fresh leaf itself — the fact that makes stopping after one rotation sound. -/
theorem insertGo_notfound (keyOf : K → α) (k : K) (v : V) (t : Tree K V)
    (hf : find keyOf (keyOf k) t = none) (hg : Good t) (hb : BST keyOf t) :
    ∃ t2 flag, insertGo keyOf k v t = (t2, flag, none) ∧ Good t2 ∧
      toList t2 = insSorted keyOf k v (toList t) ∧
      childH t ≤ childH t2 ∧ childH t2 ≤ childH t + 1 ∧
      (flag = true → childH t2 = childH t) ∧
      (childH t2 = childH t + 1 → childH (leftOf t2) ≠ childH (rightOf t2) ∨ childH t2 = 1) := by
  induction t with
  | leaf =>
    refine ⟨.node .leaf k v .leaf 0, false, rfl, ?_, by simp [toList, insSorted], ?_, ?_, ?_, ?_⟩
    · rw [good_node_iff]
      simp [childH_leaf, Good, HeightOk, BalancedT]
    · simp [childH_leaf, childH_node]
    · simp [childH_leaf, childH_node]
    · simp
    · intro _
      exact Or.inr rfl
  | node l nk nv r h ihl ihr =>
    obtain ⟨hal, har, hbl, hbr⟩ := hb
    rw [good_node_iff] at hg
    obtain ⟨hh, hbal1, hbal2, hgl, hgr⟩ := hg
    simp only [find] at hf
    simp only [insertGo]
    split_ifs at hf ⊢ with h1 h2
    · -- descend left
      obtain ⟨l2, flag2, heq, hgood2, hlist2, hle1, hle2, hflag2, htilt2⟩ := ihl hf hgl hbl
      rw [heq]
      cases flag2 with
      | true =>
        have hch : childH l2 = childH l := hflag2 rfl
        refine ⟨.node l2 nk nv r h, true, rfl, ?_, ?_, ?_, ?_, ?_, ?_⟩
        · rw [good_node_iff]
          exact ⟨by rw [hch]; exact hh, by omega, by omega, hgood2, hgr⟩
        · rw [toList_node, toList_node, hlist2,
            insSorted_append_left keyOf k v (nk, nv) (toList l) (toList r) h1]
        · simp [childH_node]
        · simp [childH_node]
        · intro _
          simp [childH_node]
        · intro hcontra
          simp only [childH_node] at hcontra
          omega
      | false =>
        obtain ⟨hrg, hrlo, hrhi, habsL, habsR⟩ :=
          rebalanceNode_good l2 nk nv r h hgood2 hgr (by omega) (by omega)
        refine ⟨(rebalanceNode (.node l2 nk nv r h)).1, (rebalanceNode (.node l2 nk nv r h)).2,
          rfl, hrg, ?_, ?_, ?_, ?_, ?_⟩
        · rw [rebalanceNode_toList, toList_node, hlist2,
            insSorted_append_left keyOf k v (nk, nv) (toList l) (toList r) h1]
        · -- lower height bound
          cases hp2 : (rebalanceNode (.node l2 nk nv r h)).2 with
          | false =>
            have hbal := (rebalanceNode_false_iff l2 nk nv r h).1 hp2
            have heqn := rebalanceNode_of_balanced l2 nk nv r h hbal.1 hbal.2
            rw [heqn]
            simp only [childH_node]
            omega
          | true =>
            have hnbal : ¬(childH l2 ≤ childH r + 1 ∧ childH r ≤ childH l2 + 1) := by
              intro hc
              rw [← rebalanceNode_false_iff l2 nk nv r h] at hc
              rw [hp2] at hc
              cases hc
            have h22 : childH l2 = childH r + 2 := by omega
            have htl : childH (leftOf l2) ≠ childH (rightOf l2) := by
              rcases htilt2 (by omega) with ht | ht
              · exact ht
              · omega
            have := habsL h22 htl
            simp only [childH_node]
            omega
        · cases hp2 : (rebalanceNode (.node l2 nk nv r h)).2 with
          | false =>
            simp only [childH_node]
            omega
          | true =>
            simp only [childH_node]
            omega
        · intro hp2
          have hnbal : ¬(childH l2 ≤ childH r + 1 ∧ childH r ≤ childH l2 + 1) := by
            intro hc
            rw [← rebalanceNode_false_iff l2 nk nv r h] at hc
            rw [hp2] at hc
            cases hc
          have h22 : childH l2 = childH r + 2 := by omega
          have htl : childH (leftOf l2) ≠ childH (rightOf l2) := by
            rcases htilt2 (by omega) with ht | ht
            · exact ht
            · omega
          have := habsL h22 htl
          simp only [childH_node]
          omega
        · -- tilt of the grown result
          intro hgrow
          simp only [childH_node] at hgrow
          cases hp2 : (rebalanceNode (.node l2 nk nv r h)).2 with
          | true =>
            have hnbal : ¬(childH l2 ≤ childH r + 1 ∧ childH r ≤ childH l2 + 1) := by
              intro hc
              rw [← rebalanceNode_false_iff l2 nk nv r h] at hc
              rw [hp2] at hc
              cases hc
            have h22 : childH l2 = childH r + 2 := by omega
            have htl : childH (leftOf l2) ≠ childH (rightOf l2) := by
              rcases htilt2 (by omega) with ht | ht
              · exact ht
              · omega
            have := habsL h22 htl
            omega
          | false =>
            have hbal := (rebalanceNode_false_iff l2 nk nv r h).1 hp2
            have heqn := rebalanceNode_of_balanced l2 nk nv r h hbal.1 hbal.2
            rw [heqn]
            simp only [leftOf, rightOf, childH_node]
            left
            rw [heqn] at hgrow
            simp only [childH_node] at hgrow
            omega
    · -- descend right
      obtain ⟨r2, flag2, heq, hgood2, hlist2, hle1, hle2, hflag2, htilt2⟩ := ihr hf hgr hbr
      rw [heq]
      have hAlt : ∀ a ∈ toList l, keyOf a.1 < keyOf k := fun a ha =>
        lt_trans ((all_iff _ l).1 hal a ha) h2
      cases flag2 with
      | true =>
        have hch : childH r2 = childH r := hflag2 rfl
        refine ⟨.node l nk nv r2 h, true, rfl, ?_, ?_, ?_, ?_, ?_, ?_⟩
        · rw [good_node_iff]
          exact ⟨by rw [hch]; exact hh, by omega, by omega, hgl, hgood2⟩
        · rw [toList_node, toList_node, hlist2,
            insSorted_append_right keyOf k v (nk, nv) (toList l) (toList r) hAlt h2]
        · simp [childH_node]
        · simp [childH_node]
        · intro _
          simp [childH_node]
        · intro hcontra
          simp only [childH_node] at hcontra
          omega
      | false =>
        obtain ⟨hrg, hrlo, hrhi, habsL, habsR⟩ :=
          rebalanceNode_good l nk nv r2 h hgl hgood2 (by omega) (by omega)
        refine ⟨(rebalanceNode (.node l nk nv r2 h)).1, (rebalanceNode (.node l nk nv r2 h)).2,
          rfl, hrg, ?_, ?_, ?_, ?_, ?_⟩
        · rw [rebalanceNode_toList, toList_node, hlist2,
            insSorted_append_right keyOf k v (nk, nv) (toList l) (toList r) hAlt h2]
        · cases hp2 : (rebalanceNode (.node l nk nv r2 h)).2 with
          | false =>
            have hbal := (rebalanceNode_false_iff l nk nv r2 h).1 hp2
            have heqn := rebalanceNode_of_balanced l nk nv r2 h hbal.1 hbal.2
            rw [heqn]
            simp only [childH_node]
            omega
          | true =>
            have hnbal : ¬(childH l ≤ childH r2 + 1 ∧ childH r2 ≤ childH l + 1) := by
              intro hc
              rw [← rebalanceNode_false_iff l nk nv r2 h] at hc
              rw [hp2] at hc
              cases hc
            have h22 : childH r2 = childH l + 2 := by omega
            have htl : childH (leftOf r2) ≠ childH (rightOf r2) := by
              rcases htilt2 (by omega) with ht | ht
              · exact ht
              · omega
            have := habsR h22 htl
            simp only [childH_node]
            omega
        · cases hp2 : (rebalanceNode (.node l nk nv r2 h)).2 with
          | false =>
            simp only [childH_node]
            omega
          | true =>
            simp only [childH_node]
            omega
        · intro hp2
          have hnbal : ¬(childH l ≤ childH r2 + 1 ∧ childH r2 ≤ childH l + 1) := by
            intro hc
            rw [← rebalanceNode_false_iff l nk nv r2 h] at hc
            rw [hp2] at hc
            cases hc
          have h22 : childH r2 = childH l + 2 := by omega
          have htl : childH (leftOf r2) ≠ childH (rightOf r2) := by
            rcases htilt2 (by omega) with ht | ht
            · exact ht
            · omega
          have := habsR h22 htl
          simp only [childH_node]
          omega
        · intro hgrow
          simp only [childH_node] at hgrow
          cases hp2 : (rebalanceNode (.node l nk nv r2 h)).2 with
          | true =>
            have hnbal : ¬(childH l ≤ childH r2 + 1 ∧ childH r2 ≤ childH l + 1) := by
              intro hc
              rw [← rebalanceNode_false_iff l nk nv r2 h] at hc
              rw [hp2] at hc
              cases hc
            have h22 : childH r2 = childH l + 2 := by omega
            have htl : childH (leftOf r2) ≠ childH (rightOf r2) := by
              rcases htilt2 (by omega) with ht | ht
              · exact ht
              · omega
            have := habsR h22 htl
            omega
          | false =>
            have hbal := (rebalanceNode_false_iff l nk nv r2 h).1 hp2
            have heqn := rebalanceNode_of_balanced l nk nv r2 h hbal.1 hbal.2
            rw [heqn]
            simp only [leftOf, rightOf, childH_node]
            left
            rw [heqn] at hgrow
            simp only [childH_node] at hgrow
            omega

/-! ### Deletion -/

theorem popMin_node (l : Tree K V) (k : K) (v : V) (r : Tree K V) (h : Nat) :
    popMin (.node l k v r h) = match popMin l with
      | none => some (k, v, r)
      | some (sk, sv, l2) => some (sk, sv, (rebalanceNode (.node l2 k v r h)).1) := rfl

/-- The successor splice (`unlink_node`, right-subtree part): `popMin`
returns the in-order minimum of a nonempty good subtree (the head of its
sorted sequence — the walked-to node with no left child), and the remaining
subtree is good with height shrunk by at most one. -/
theorem popMin_spec (t : Tree K V) (hg : Good t) (hne : t ≠ .leaf) :
    ∃ sk sv t2, popMin t = some (sk, sv, t2) ∧
      toList t = (sk, sv) :: toList t2 ∧ Good t2 ∧
      (childH t2 = childH t ∨ childH t2 + 1 = childH t) := by
  induction t with
  | leaf => exact absurd rfl hne
  | node l k v r h ihl ihr =>
    rw [good_node_iff] at hg
    obtain ⟨hh, hb1, hb2, hgl, hgr⟩ := hg
    cases l with
    | leaf =>
      refine ⟨k, v, r, by rw [popMin_node]; rfl, by simp [toList_node, toList], hgr, ?_⟩
      simp only [childH_leaf, childH_node] at *
      omega
    | node ll lk lv lr lh =>
      obtain ⟨sk, sv, l2, heq, hlist, hgood2, hht⟩ := ihl hgl (by simp)
      obtain ⟨hrg, hrlo, hrhi, _habsL, _habsR⟩ :=
        rebalanceNode_good l2 k v r h hgood2 hgr
          (by simp only [childH_node] at *; omega) (by simp only [childH_node] at *; omega)
      refine ⟨sk, sv, (rebalanceNode (.node l2 k v r h)).1, by rw [popMin_node, heq], ?_, hrg, ?_⟩
      · rw [rebalanceNode_toList, toList_node, hlist]
        simp
      · cases hp2 : (rebalanceNode (.node l2 k v r h)).2 with
        | false =>
          have hbal := (rebalanceNode_false_iff l2 k v r h).1 hp2
          have heqn := rebalanceNode_of_balanced l2 k v r h hbal.1 hbal.2
          rw [heqn]
          simp only [childH_node] at *
          omega
        | true =>
          have hnbal : ¬(childH l2 ≤ childH r + 1 ∧ childH r ≤ childH l2 + 1) := by
            intro hc
            rw [← rebalanceNode_false_iff l2 k v r h] at hc
            rw [hp2] at hc
            cases hc
          simp only [childH_node] at *
          omega

/-- `remove_entry` on an absent key (map.rs lines 245-254): the `find`
fails, nothing is touched. -/
theorem removeGo_notfound (keyOf : K → α) (q : α) (t : Tree K V)
    (hf : find keyOf q t = none) : removeGo keyOf q t = (t, none) := by
  induction t with
  | leaf => rfl
  | node l k v r h ihl ihr =>
    simp only [find] at hf
    simp only [removeGo]
    split_ifs at hf ⊢ with h1 h2
    · rw [ihl hf]
    · rw [ihr hf]

/-- `remove_entry` on a present key: the node is unlinked (successor splice
when it has a right child), every position from the splice point back to
the root is rebalanced, the stored key/value pair of the found node is
returned, and its entry disappears from the sorted sequence; the height
invariants hold afterwards and the subtree height shrinks by at most one. -/
theorem removeGo_found (keyOf : K → α) (q : α) (t : Tree K V) (k₀ : K) (v₀ : V)
    (hf : find keyOf q t = some (k₀, v₀)) (hg : Good t) :
    ∃ t2 A B, removeGo keyOf q t = (t2, some (k₀, v₀)) ∧
      toList t = A ++ (k₀, v₀) :: B ∧ toList t2 = A ++ B ∧ Good t2 ∧
      (childH t2 = childH t ∨ childH t2 + 1 = childH t) := by
  induction t with
  | leaf => simp [find] at hf
  | node l k v r h ihl ihr =>
    rw [good_node_iff] at hg
    obtain ⟨hh, hb1, hb2, hgl, hgr⟩ := hg
    simp only [find] at hf
    simp only [removeGo]
    split_ifs at hf ⊢ with h1 h2
    · -- removed node is in the left subtree
      obtain ⟨l2, A, B, heq, hl1, hl2, hgood2, hht⟩ := ihl hf hgl
      rw [heq]
      obtain ⟨hrg, hrlo, hrhi, _, _⟩ :=
        rebalanceNode_good l2 k v r h hgood2 hgr (by omega) (by omega)
      refine ⟨(rebalanceNode (.node l2 k v r h)).1, A, B ++ (k, v) :: toList r, rfl,
        by simp [toList_node, hl1], by simp [rebalanceNode_toList, hl2], hrg, ?_⟩
      cases hp2 : (rebalanceNode (.node l2 k v r h)).2 with
      | false =>
        have hbal := (rebalanceNode_false_iff l2 k v r h).1 hp2
        have heqn := rebalanceNode_of_balanced l2 k v r h hbal.1 hbal.2
        rw [heqn]
        simp only [childH_node] at *
        omega
      | true =>
        have hnbal : ¬(childH l2 ≤ childH r + 1 ∧ childH r ≤ childH l2 + 1) := by
          intro hc
          rw [← rebalanceNode_false_iff l2 k v r h] at hc
          rw [hp2] at hc
          cases hc
        simp only [childH_node] at *
        omega
    · -- removed node is in the right subtree
      obtain ⟨r2, A, B, heq, hr1, hr2, hgood2, hht⟩ := ihr hf hgr
      rw [heq]
      obtain ⟨hrg, hrlo, hrhi, _, _⟩ :=
        rebalanceNode_good l k v r2 h hgl hgood2 (by omega) (by omega)
      refine ⟨(rebalanceNode (.node l k v r2 h)).1, toList l ++ (k, v) :: A, B, rfl,
        by simp [toList_node, hr1], by simp [rebalanceNode_toList, hr2], hrg, ?_⟩
      cases hp2 : (rebalanceNode (.node l k v r2 h)).2 with
      | false =>
        have hbal := (rebalanceNode_false_iff l k v r2 h).1 hp2
        have heqn := rebalanceNode_of_balanced l k v r2 h hbal.1 hbal.2
        rw [heqn]
        simp only [childH_node] at *
        omega
      | true =>
        have hnbal : ¬(childH l ≤ childH r2 + 1 ∧ childH r2 ≤ childH l + 1) := by
          intro hc
          rw [← rebalanceNode_false_iff l k v r2 h] at hc
          rw [hp2] at hc
          cases hc
        simp only [childH_node] at *
        omega
    · -- this is the node to unlink
      simp only [Option.some.injEq, Prod.mk.injEq] at hf
      obtain ⟨rfl, rfl⟩ := hf
      unfold unlink
      cases r with
      | leaf =>
        refine ⟨l, toList l, [], by simp [popMin], by simp [toList_node, toList], by simp, hgl, ?_⟩
        simp only [childH_leaf, childH_node] at *
        omega
      | node rl rk rv rr rh =>
        obtain ⟨sk, sv, r2, heqp, hlistp, hgoodp, hhtp⟩ := popMin_spec _ hgr (by simp)
        rw [heqp]
        obtain ⟨hrg, hrlo, hrhi, _, _⟩ :=
          rebalanceNode_good l sk sv r2 h hgl hgoodp
            (by simp only [childH_node] at *; omega) (by simp only [childH_node] at *; omega)
        refine ⟨(rebalanceNode (.node l sk sv r2 h)).1, toList l, toList (.node rl rk rv rr rh),
          rfl, by simp [toList_node], ?_, hrg, ?_⟩
        · rw [rebalanceNode_toList, hlistp]
        · cases hp2 : (rebalanceNode (.node l sk sv r2 h)).2 with
          | false =>
            have hbal := (rebalanceNode_false_iff l sk sv r2 h).1 hp2
            have heqn := rebalanceNode_of_balanced l sk sv r2 h hbal.1 hbal.2
            rw [heqn]
            simp only [childH_node] at *
            omega
          | true =>
            have hnbal : ¬(childH l ≤ childH r2 + 1 ∧ childH r2 ≤ childH l + 1) := by
              intro hc
              rw [← rebalanceNode_false_iff l sk sv r2 h] at hc
              rw [hp2] at hc
              cases hc
            simp only [childH_node] at *
            omega

/-! ### Parent-pointer consistency of the reified link graph -/

theorem lookupLink_of_nodup (ls : List (LinkEntry α)) (e : LinkEntry α)
    (hnd : (ls.map fun x => x.key).Nodup) (he : e ∈ ls) :
    lookupLink ls e.key = some e := by
  induction ls with
  | nil => simp at he
  | cons a ls ih =>
    simp only [List.map_cons, List.nodup_cons, List.mem_map] at hnd
    obtain ⟨hna, hnd⟩ := hnd
    rcases List.mem_cons.1 he with rfl | he
    · simp [lookupLink, List.find?_cons_of_pos]
    · have hne : a.key ≠ e.key := fun hc => hna ⟨e, he, hc.symm⟩
      simp only [lookupLink] at *
      rw [List.find?_cons_of_neg _ (by simpa using hne)]
      exact ih hnd he

theorem linksOf_mem_key (keyOf : K → α) (t : Tree K V) :
    ∀ p c, (c ∈ (linksOf keyOf t p).map fun e => e.key) ↔ c ∈ keyList keyOf t := by
  induction t with
  | leaf => simp [linksOf, keyList, toList]
  | node l k v r h ihl ihr =>
    intro p c
    simp only [linksOf, List.map_cons, List.map_append, List.mem_cons, List.mem_append,
      keyList_node, ihl, ihr]
    tauto

theorem linksOf_keys_nodup (keyOf : K → α) (t : Tree K V) (hb : BST keyOf t) :
    ∀ p, ((linksOf keyOf t p).map fun e => e.key).Nodup := by
  induction t with
  | leaf => simp [linksOf]
  | node l k v r h ihl ihr =>
    intro p
    obtain ⟨hal, har, hbl, hbr⟩ := hb
    simp only [linksOf, List.map_cons, List.map_append, List.nodup_cons, List.nodup_append]
    refine ⟨?_, ihl hbl _, ihr hbr _, ?_⟩
    · intro hc
      rcases List.mem_append.1 hc with hc | hc
      · rw [linksOf_mem_key] at hc
        simp only [keyList, List.mem_map] at hc
        obtain ⟨e, he, hk⟩ := hc
        exact absurd hk (ne_of_lt ((all_iff _ l).1 hal e he))
      · rw [linksOf_mem_key] at hc
        simp only [keyList, List.mem_map] at hc
        obtain ⟨e, he, hk⟩ := hc
        exact absurd hk (ne_of_gt ((all_iff _ r).1 har e he))
    · intro c hcl hcr
      rw [linksOf_mem_key] at hcl hcr
      simp only [keyList, List.mem_map] at hcl hcr
      obtain ⟨e1, he1, hk1⟩ := hcl
      obtain ⟨e2, he2, hk2⟩ := hcr
      have h1 := (all_iff _ l).1 hal e1 he1
      have h2 := (all_iff _ r).1 har e2 he2
      rw [hk1] at h1
      rw [hk2] at h2
      exact absurd (h1.trans h2) (lt_irrefl c)

theorem linksOf_child_parent (keyOf : K → α) (t : Tree K V) :
    ∀ p e c, e ∈ linksOf keyOf t p → (e.left = some c ∨ e.right = some c) →
      ∃ e2 ∈ linksOf keyOf t p, e2.key = c ∧ e2.parent = some e.key := by
  induction t with
  | leaf => simp [linksOf]
  | node l k v r h ihl ihr =>
    intro p e c he hc
    simp only [linksOf, List.mem_cons, List.mem_append] at he ⊢
    rcases he with rfl | he | he
    · -- e is this node's entry; its children are the subtree roots
      rcases hc with hc | hc
      · simp only at hc
        cases l with
        | leaf => simp [rootKey] at hc
        | node a b c2 d e2 =>
          simp only [rootKey, Option.some.injEq] at hc
          exact ⟨⟨keyOf b, some (keyOf k), rootKey keyOf a, rootKey keyOf d⟩,
            Or.inr (Or.inl (by simp [linksOf])), by simpa using hc, rfl⟩
      · simp only at hc
        cases r with
        | leaf => simp [rootKey] at hc
        | node a b c2 d e2 =>
          simp only [rootKey, Option.some.injEq] at hc
          exact ⟨⟨keyOf b, some (keyOf k), rootKey keyOf a, rootKey keyOf d⟩,
            Or.inr (Or.inr (by simp [linksOf])), by simpa using hc, rfl⟩
    · obtain ⟨e2, he2, hk, hp⟩ := ihl (some (keyOf k)) e c he hc
      exact ⟨e2, Or.inr (Or.inl he2), hk, hp⟩
    · obtain ⟨e2, he2, hk, hp⟩ := ihr (some (keyOf k)) e c he hc
      exact ⟨e2, Or.inr (Or.inr he2), hk, hp⟩

theorem linksOf_parent_child (keyOf : K → α) (t : Tree K V) :
    ∀ p e pk, e ∈ linksOf keyOf t p → e.parent = some pk →
      (e.parent = p ∧ some e.key = rootKey keyOf t) ∨
        ∃ e2 ∈ linksOf keyOf t p, e2.key = pk ∧
          (e2.left = some e.key ∨ e2.right = some e.key) := by
  induction t with
  | leaf => simp [linksOf]
  | node l k v r h ihl ihr =>
    intro p e pk he hp
    simp only [linksOf, List.mem_cons, List.mem_append] at he ⊢
    rcases he with rfl | he | he
    · exact Or.inl ⟨rfl, by simp [rootKey]⟩
    · rcases ihl (some (keyOf k)) e pk he hp with ⟨hep, hkey⟩ | ⟨e2, he2, hk, hchild⟩
      · refine Or.inr ⟨⟨keyOf k, p, rootKey keyOf l, rootKey keyOf r⟩, Or.inl rfl, ?_, ?_⟩
        · simp only []
          have : some pk = some (keyOf k) := hp ▸ hep
          simpa using this.symm
        · exact Or.inl hkey.symm
      · exact Or.inr ⟨e2, Or.inr (Or.inl he2), hk, hchild⟩
    · rcases ihr (some (keyOf k)) e pk he hp with ⟨hep, hkey⟩ | ⟨e2, he2, hk, hchild⟩
      · refine Or.inr ⟨⟨keyOf k, p, rootKey keyOf l, rootKey keyOf r⟩, Or.inl rfl, ?_, ?_⟩
        · simp only []
          have : some pk = some (keyOf k) := hp ▸ hep
          simpa using this.symm
        · exact Or.inr hkey.symm
      · exact Or.inr ⟨e2, Or.inr (Or.inr he2), hk, hchild⟩

theorem linksOf_deep_parent (keyOf : K → α) (t : Tree K V) :
    ∀ k0, ∀ e ∈ linksOf keyOf t (some k0), ∃ pk, e.parent = some pk := by
  induction t with
  | leaf => simp [linksOf]
  | node l k v r h ihl ihr =>
    intro k0 e he
    simp only [linksOf, List.mem_cons, List.mem_append] at he
    rcases he with rfl | he | he
    · exact ⟨k0, rfl⟩
    · exact ihl (keyOf k) e he
    · exact ihr (keyOf k) e he

/-- Every search tree's reified pointer graph is parent-consistent
(invariant 2 of the data model; the assertions of `check_consistency`). -/
theorem parentConsistent_of_bst (keyOf : K → α) (t : Tree K V) (hb : BST keyOf t) :
    ParentConsistent keyOf t := by
  have hnd := linksOf_keys_nodup keyOf t hb none
  constructor
  · intro e he
    unfold linkOkB
    have hchild : ∀ c, (e.left = some c ∨ e.right = some c) →
        ∃ e2, lookupLink (linksOf keyOf t none) c = some e2 ∧ e2.parent = some e.key := by
      intro c hc
      obtain ⟨e2, he2, hk, hp⟩ := linksOf_child_parent keyOf t none e c he hc
      refine ⟨e2, ?_, hp⟩
      have := lookupLink_of_nodup _ e2 hnd he2
      rwa [hk] at this
    simp only [Bool.and_eq_true]
    refine ⟨⟨?_, ?_⟩, ?_⟩
    · cases hl : e.left with
      | none => rfl
      | some c =>
        obtain ⟨e2, hlk, hp⟩ := hchild c (Or.inl hl)
        simp [hlk, hp]
    · cases hr : e.right with
      | none => rfl
      | some c =>
        obtain ⟨e2, hlk, hp⟩ := hchild c (Or.inr hr)
        simp [hlk, hp]
    · cases hp : e.parent with
      | none => rfl
      | some pk =>
        rcases linksOf_parent_child keyOf t none e pk he hp with ⟨hep, _⟩ | ⟨e2, he2, hk, hchild2⟩
        · rw [hp] at hep
          cases hep
        · have hlk := lookupLink_of_nodup _ e2 hnd he2
          rw [hk] at hlk
          rcases hchild2 with hc | hc <;> simp [hlk, hc]
  · intro e he hp
    cases t with
    | leaf => simp [linksOf] at he
    | node l k v r h =>
      simp only [linksOf, List.mem_cons, List.mem_append] at he
      rcases he with rfl | he | he
      · simp [rootKey]
      · obtain ⟨pk, hpk⟩ := linksOf_deep_parent keyOf l (keyOf k) e he
        rw [hp] at hpk
        cases hpk
      · obtain ⟨pk, hpk⟩ := linksOf_deep_parent keyOf r (keyOf k) e he
        rw [hp] at hpk
        cases hpk

/-! ### Invariant preservation at map level -/

theorem childH_shape_eq (t1 t2 : Tree K V) (h : shape t1 = shape t2) :
    childH t1 = childH t2 := by
  cases t1 <;> cases t2 <;> simp_all [shape, childH]

theorem heightOk_shape_eq (t1 t2 : Tree K V) (h : shape t1 = shape t2) :
    HeightOk t1 → HeightOk t2 := by
  induction t1 generalizing t2 with
  | leaf => cases t2 <;> simp_all [shape, HeightOk]
  | node l k v r hh ihl ihr =>
    cases t2 with
    | leaf => simp [shape] at h
    | node l2 k2 v2 r2 h2 =>
      simp only [shape, Tree.node.injEq] at h
      obtain ⟨hsl, -, -, hsr, hh2⟩ := h
      intro hok
      obtain ⟨hhe, hokl, hokr⟩ := hok
      exact ⟨by rw [← hh2, hhe, childH_shape_eq l l2 hsl, childH_shape_eq r r2 hsr],
        ihl l2 hsl hokl, ihr r2 hsr hokr⟩

theorem balancedT_shape_eq (t1 t2 : Tree K V) (h : shape t1 = shape t2) :
    BalancedT t1 → BalancedT t2 := by
  induction t1 generalizing t2 with
  | leaf => cases t2 <;> simp_all [shape, BalancedT]
  | node l k v r hh ihl ihr =>
    cases t2 with
    | leaf => simp [shape] at h
    | node l2 k2 v2 r2 h2 =>
      simp only [shape, Tree.node.injEq] at h
      obtain ⟨hsl, -, -, hsr, hh2⟩ := h
      intro hbal
      obtain ⟨hb1, hb2, hbl, hbr⟩ := hbal
      rw [childH_shape_eq l l2 hsl, childH_shape_eq r r2 hsr] at hb1 hb2
      exact ⟨hb1, hb2, ihl l2 hsl hbl, ihr r2 hsr hbr⟩

theorem bst_of_toList_replace (keyOf : K → α) (t t2 : Tree K V) (A B : List (K × V))
    (k₀ : K) (w v : V) (hb : BST keyOf t)
    (h1 : toList t = A ++ (k₀, w) :: B) (h2 : toList t2 = A ++ (k₀, v) :: B) :
    BST keyOf t2 := by
  rw [bst_iff_sorted] at hb ⊢
  unfold keyList at hb ⊢
  rw [h1] at hb
  rw [h2]
  simpa using hb

/-- `insert` preserves the five invariants. -/
theorem insert_preserves_inv (keyOf : K → α) (m : Map K V) (k : K) (v : V)
    (hi : Inv keyOf m) : Inv keyOf (m.insert keyOf k v).1 := by
  obtain ⟨hbst, _hpc, hbal, hok, hnum⟩ := hi
  cases hfind : find keyOf (keyOf k) m.root with
  | some e =>
    obtain ⟨k₀, w⟩ := e
    obtain ⟨t2, heq, hsh, A, B, hA, hB⟩ := insertGo_found keyOf k v m.root k₀ w hfind
    have hbst2 : BST keyOf t2 := bst_of_toList_replace keyOf m.root t2 A B k₀ w v hbst hA hB
    refine ⟨?_, ?_, ?_, ?_, ?_⟩ <;>
      simp only [Map.insert, heq, Option.isSome_some, if_pos]
    · exact hbst2
    · exact parentConsistent_of_bst keyOf t2 hbst2
    · exact balancedT_shape_eq m.root t2 hsh.symm hbal
    · exact heightOk_shape_eq m.root t2 hsh.symm hok
    · rw [size_eq_length, hB, hnum, size_eq_length, hA]
      simp
  | none =>
    obtain ⟨t2, flag, heq, hgood2, hlist2, -, -, -, -⟩ :=
      insertGo_notfound keyOf k v m.root hfind ⟨hok, hbal⟩ hbst
    have hnotmem := find_none_not_mem keyOf (keyOf k) m.root hbst hfind
    have hbst2 : BST keyOf t2 := by
      rw [bst_iff_sorted]
      unfold keyList
      rw [hlist2]
      exact insSorted_keys_sorted keyOf k v (toList m.root)
        (by have := (bst_iff_sorted keyOf m.root).1 hbst; rwa [keyList] at this)
        (by rwa [keyList] at hnotmem)
    refine ⟨?_, ?_, ?_, ?_, ?_⟩ <;>
      simp only [Map.insert, heq, Option.isSome_none, Bool.false_eq_true, if_neg,
        not_false_iff]
    · exact hbst2
    · exact parentConsistent_of_bst keyOf t2 hbst2
    · exact hgood2.2
    · exact hgood2.1
    · rw [size_eq_length, hlist2, insSorted_length, hnum, size_eq_length]

/-- `remove` preserves the five invariants. -/
theorem remove_preserves_inv (keyOf : K → α) (m : Map K V) (q : α)
    (hi : Inv keyOf m) : Inv keyOf (m.remove keyOf q).1 := by
  obtain ⟨hbst, hpc, hbal, hok, hnum⟩ := hi
  cases hfind : find keyOf q m.root with
  | none =>
    rw [Map.remove, removeGo_notfound keyOf q m.root hfind]
    exact ⟨hbst, hpc, hbal, hok, hnum⟩
  | some e =>
    obtain ⟨k₀, v₀⟩ := e
    obtain ⟨t2, A, B, heq, hA, hB, hgood2, -⟩ :=
      removeGo_found keyOf q m.root k₀ v₀ hfind ⟨hok, hbal⟩
    have hbst2 : BST keyOf t2 := by
      rw [bst_iff_sorted]
      unfold keyList
      rw [hB]
      have hs := (bst_iff_sorted keyOf m.root).1 hbst
      rw [keyList, hA] at hs
      refine List.Pairwise.sublist ?_ hs
      simpa using List.Sublist.map _ ((A.sublist_append_left _).trans
        (List.sublist_append_left _ _) |>.append (List.sublist_cons_self _ _))
    rw [Map.remove, heq]
    refine ⟨hbst2, parentConsistent_of_bst keyOf t2 hbst2, hgood2.2, hgood2.1, ?_⟩
    rw [size_eq_length, hB, hnum, size_eq_length, hA]
    simp

theorem inv_empty (keyOf : K → α) : Inv keyOf (Map.empty : Map K V) := by
  refine ⟨trivial, ⟨?_, ?_⟩, trivial, trivial, rfl⟩ <;> simp [linksOf, Map.empty]

theorem step_preserves_inv (keyOf : K → α) (m : Map K V) (op : Op α K V)
    (hi : Inv keyOf m) : Inv keyOf (m.step keyOf op) := by
  cases op with
  | ins k v => exact insert_preserves_inv keyOf m k v hi
  | del q => exact remove_preserves_inv keyOf m q hi

theorem foldl_preserves_inv (keyOf : K → α) (ops : List (Op α K V)) :
    ∀ m : Map K V, Inv keyOf m → Inv keyOf (ops.foldl (Map.step keyOf) m) := by
  induction ops with
  | nil => exact fun m hm => hm
  | cons op ops ih =>
    intro m hm
    exact ih _ (step_preserves_inv keyOf m op hm)

theorem run_inv (keyOf : K → α) (ops : List (Op α K V)) :
    Inv keyOf (Map.run keyOf ops) :=
  foldl_preserves_inv keyOf ops Map.empty (inv_empty keyOf)

/-! ### Bound resolution resolves to first/last entries of the sorted list -/

theorem option_map_or {β : Type} (o1 o2 : Option (K × V)) (f : K × V → β) :
    (o1.or o2).map f = (o1.map f).or (o2.map f) := by
  cases o1 <;> simp

theorem findFirstNode_spec (t : Tree K V) : findFirstNode t = (toList t).head? := by
  induction t with
  | leaf => rfl
  | node l k v r h ihl ihr =>
    simp only [findFirstNode, toList_node, List.head?_append, ihl]
    cases (toList l).head? <;> simp

theorem findLastNode_spec (t : Tree K V) : findLastNode t = (toList t).reverse.head? := by
  induction t with
  | leaf => rfl
  | node l k v r h ihl ihr =>
    simp only [findLastNode, toList_node, List.reverse_append, List.reverse_cons,
      List.head?_append, ihr]
    cases (toList r).reverse.head? <;> simp

/-- `find_start_bound_included` finds the first in-order entry with key part
`≥ q` (the descend-then-ascend walk of the source collapses to this). -/
theorem fsbIncGo_spec (keyOf : K → α) (q : α) (t : Tree K V) (hb : BST keyOf t) :
    ∀ acc, fsbIncGo keyOf q t acc =
      (((toList t).find? fun p => decide (q ≤ keyOf p.1)).map fun p => p.1).or acc := by
  induction t with
  | leaf => intro acc; simp [fsbIncGo, toList]
  | node l k v r h ihl ihr =>
    obtain ⟨hal, har, hbl, hbr⟩ := hb
    intro acc
    simp only [fsbIncGo, toList_node, List.find?_append]
    split_ifs with h1 h2
    · rw [ihl hbl (some k), List.find?_cons_of_pos _ (by simp [le_of_lt h1]),
        option_map_or]
      simp [Option.or_assoc]
    · have hfl : (toList l).find? (fun p => decide (q ≤ keyOf p.1)) = none := by
        rw [List.find?_eq_none]
        intro x hx
        simp only [decide_eq_true_eq, not_le]
        exact lt_trans ((all_iff _ l).1 hal x hx) h2
      rw [ihr hbr acc, hfl, List.find?_cons_of_neg _ (by simp [not_le_of_gt h2])]
      simp
    · have hq : q = keyOf k := le_antisymm (not_lt.1 h2) (not_lt.1 h1)
      have hfl : (toList l).find? (fun p => decide (q ≤ keyOf p.1)) = none := by
        rw [List.find?_eq_none]
        intro x hx
        simp only [decide_eq_true_eq, not_le]
        rw [hq]
        exact (all_iff _ l).1 hal x hx
      rw [hfl, List.find?_cons_of_pos _ (by simp [hq])]
      simp

/-- `find_start_bound_excluded` finds the first in-order entry with key part
`> q`. -/
theorem fsbExcGo_spec (keyOf : K → α) (q : α) (t : Tree K V) (hb : BST keyOf t) :
    ∀ acc, fsbExcGo keyOf q t acc =
      (((toList t).find? fun p => decide (q < keyOf p.1)).map fun p => p.1).or acc := by
  induction t with
  | leaf => intro acc; simp [fsbExcGo, toList]
  | node l k v r h ihl ihr =>
    obtain ⟨hal, har, hbl, hbr⟩ := hb
    intro acc
    simp only [fsbExcGo, toList_node, List.find?_append]
    split_ifs with h1
    · rw [ihl hbl (some k), List.find?_cons_of_pos _ (by simp [h1]), option_map_or]
      simp [Option.or_assoc]
    · have hfl : (toList l).find? (fun p => decide (q < keyOf p.1)) = none := by
        rw [List.find?_eq_none]
        intro x hx
        simp only [decide_eq_true_eq, not_lt]
        exact le_of_lt (lt_of_lt_of_le ((all_iff _ l).1 hal x hx) (not_lt.1 h1))
      rw [ihr hbr acc, hfl, List.find?_cons_of_neg _ (by simp [h1])]
      simp

/-- `find_end_bound_included` finds the last in-order entry with key part
`≤ q`. -/
theorem febIncGo_spec (keyOf : K → α) (q : α) (t : Tree K V) (hb : BST keyOf t) :
    ∀ acc, febIncGo keyOf q t acc =
      (((toList t).reverse.find? fun p => decide (keyOf p.1 ≤ q)).map fun p => p.1).or acc := by
  induction t with
  | leaf => intro acc; simp [febIncGo, toList]
  | node l k v r h ihl ihr =>
    obtain ⟨hal, har, hbl, hbr⟩ := hb
    intro acc
    simp only [febIncGo, toList_node, List.reverse_append, List.reverse_cons,
      List.find?_append]
    split_ifs with h1 h2
    · have hfr : (toList r).reverse.find? (fun p => decide (keyOf p.1 ≤ q)) = none := by
        rw [List.find?_eq_none]
        intro x hx
        rw [List.mem_reverse] at hx
        simp only [decide_eq_true_eq, not_le]
        exact lt_trans h1 ((all_iff _ r).1 har x hx)
      rw [ihl hbl acc, hfr]
      simp [List.find?_cons, not_le_of_gt h1]
    · rw [ihr hbr (some k)]
      cases (toList r).reverse.find? fun p => decide (keyOf p.1 ≤ q) <;>
        simp [List.find?_cons, le_of_lt h2]
    · have hq : keyOf k = q := le_antisymm (not_lt.1 h1) (not_lt.1 h2)
      have hfr : (toList r).reverse.find? (fun p => decide (keyOf p.1 ≤ q)) = none := by
        rw [List.find?_eq_none]
        intro x hx
        rw [List.mem_reverse] at hx
        simp only [decide_eq_true_eq, not_le]
        rw [← hq]
        exact (all_iff _ r).1 har x hx
      rw [hfr]
      simp [List.find?_cons, hq]

/-- `find_end_bound_excluded` finds the last in-order entry with key part
`< q`. -/
theorem febExcGo_spec (keyOf : K → α) (q : α) (t : Tree K V) (hb : BST keyOf t) :
    ∀ acc, febExcGo keyOf q t acc =
      (((toList t).reverse.find? fun p => decide (keyOf p.1 < q)).map fun p => p.1).or acc := by
  induction t with
  | leaf => intro acc; simp [febExcGo, toList]
  | node l k v r h ihl ihr =>
    obtain ⟨hal, har, hbl, hbr⟩ := hb
    intro acc
    simp only [febExcGo, toList_node, List.reverse_append, List.reverse_cons,
      List.find?_append]
    split_ifs with h1
    · rw [ihr hbr (some k)]
      cases (toList r).reverse.find? fun p => decide (keyOf p.1 < q) <;>
        simp [List.find?_cons, h1]
    · have hfr : (toList r).reverse.find? (fun p => decide (keyOf p.1 < q)) = none := by
        rw [List.find?_eq_none]
        intro x hx
        rw [List.mem_reverse] at hx
        simp only [decide_eq_true_eq, not_lt]
        exact le_trans (not_lt.1 h1) (le_of_lt ((all_iff _ r).1 har x hx))
      rw [ihl hbl acc, hfr]
      simp [List.find?_cons, h1]

/-! ### The narrowing iterator advances to the in-order successor -/

/-- `pop_first`'s advance (right-subtree minimum, or nearest ancestor
reached from a left child) computes the first in-order entry with key part
strictly greater than the current one. -/
theorem succEntry_spec (keyOf : K → α) (q : α) (t : Tree K V) (hb : BST keyOf t)
    (e0 : K × V) (hf : find keyOf q t = some e0) :
    ∀ acc, succEntry keyOf q t acc =
      ((toList t).find? fun p => decide (q < keyOf p.1)).or acc := by
  induction t with
  | leaf => simp [find] at hf
  | node l k v r h ihl ihr =>
    obtain ⟨hal, har, hbl, hbr⟩ := hb
    simp only [find] at hf
    intro acc
    simp only [succEntry, toList_node, List.find?_append]
    split_ifs at hf ⊢ with h1 h2
    · rw [ihl hbl hf (some (k, v)), List.find?_cons_of_pos _ (by simp [h1])]
      cases (toList l).find? fun p => decide (q < keyOf p.1) <;> simp
    · have hfl : (toList l).find? (fun p => decide (q < keyOf p.1)) = none := by
        rw [List.find?_eq_none]
        intro x hx
        simp only [decide_eq_true_eq, not_lt]
        exact le_of_lt (lt_trans ((all_iff _ l).1 hal x hx) h2)
      rw [ihr hbr hf acc, hfl, List.find?_cons_of_neg _ (by simp [asymm h2])]
      simp
    · have hq : q = keyOf k := le_antisymm (not_lt.1 h2) (not_lt.1 h1)
      have hfl : (toList l).find? (fun p => decide (q < keyOf p.1)) = none := by
        rw [List.find?_eq_none]
        intro x hx
        simp only [decide_eq_true_eq, not_lt]
        rw [hq]
        exact le_of_lt ((all_iff _ l).1 hal x hx)
      have hfk : ((k, v) :: toList r).find? (fun p => decide (q < keyOf p.1)) =
          (toList r).find? fun p => decide (q < keyOf p.1) := by
        rw [List.find?_cons_of_neg _ (by simp [hq])]
      cases r with
      | leaf => simp [hfl, hfk, toList, h1]
      | node rl rk rv rr rh =>
        have hall : ∀ x ∈ toList (.node rl rk rv rr rh : Tree K V),
            decide (q < keyOf x.1) = true := by
          intro x hx
          simp only [decide_eq_true_eq]
          rw [hq]
          exact (all_iff _ _).1 har x hx
        have hne : toList (.node rl rk rv rr rh : Tree K V) ≠ [] := by
          simp [toList_node]
        rw [findFirstNode_spec, hfl, hfk]
        cases hL : toList (.node rl rk rv rr rh : Tree K V) with
        | nil => exact absurd hL hne
        | cons x xs =>
          have hx : (fun p : K × V => decide (q < keyOf p.1)) x = true :=
            hall x (by rw [hL]; exact List.mem_cons_self x xs)
          rw [List.find?_cons_of_pos (p := fun p : K × V => decide (q < keyOf p.1)) _ hx]
          simp

/-! ### Sorted-list utilities for range iteration -/

theorem filter_key_eq (keyOf : K → α) (L : List (K × V))
    (hnd : (L.map fun p => keyOf p.1).Nodup) (e : K × V) (he : e ∈ L) :
    L.filter (fun p => decide (keyOf p.1 = keyOf e.1)) = [e] := by
  induction L with
  | nil => simp at he
  | cons a L ih =>
    simp only [List.map_cons, List.nodup_cons, List.mem_map] at hnd
    obtain ⟨hna, hnd⟩ := hnd
    rcases List.mem_cons.1 he with rfl | he
    · rw [List.filter_cons_of_pos (by simp)]
      have h0 : L.filter (fun p => decide (keyOf p.1 = keyOf e.1)) = [] := by
        rw [List.filter_eq_nil_iff]
        intro x hx
        simp only [decide_eq_true_eq]
        exact fun hc => hna ⟨x, hx, hc⟩
      rw [h0]
    · have hne : keyOf a.1 ≠ keyOf e.1 := fun hc => hna ⟨e, he, hc.symm⟩
      rw [List.filter_cons_of_neg (by simpa using hne)]
      exact ih hnd he

theorem sorted_mem_ext (keyOf : K → α) (L1 L2 : List (K × V))
    (h1 : (L1.map fun p => keyOf p.1).Sorted (· < ·))
    (h2 : (L2.map fun p => keyOf p.1).Sorted (· < ·))
    (hm : ∀ x, x ∈ L1 ↔ x ∈ L2) : L1 = L2 := by
  induction L1 generalizing L2 with
  | nil =>
    cases L2 with
    | nil => rfl
    | cons y L2 => exact absurd ((hm y).2 (List.mem_cons_self y L2)) (by simp)
  | cons x L1 ih =>
    cases L2 with
    | nil => exact absurd ((hm x).1 (List.mem_cons_self x L1)) (by simp)
    | cons y L2 =>
      simp only [List.map_cons, List.sorted_cons] at h1 h2
      obtain ⟨hx1, h1⟩ := h1
      obtain ⟨hy2, h2⟩ := h2
      have hxy : x = y := by
        have hxm := (hm x).1 (List.mem_cons_self x L1)
        have hym := (hm y).2 (List.mem_cons_self y L2)
        rcases List.mem_cons.1 hxm with rfl | hxm
        · rfl
        · rcases List.mem_cons.1 hym with rfl | hym
          · rfl
          · have hlt1 := hx1 (keyOf y.1) (List.mem_map_of_mem _ hym)
            have hlt2 := hy2 (keyOf x.1) (List.mem_map_of_mem _ hxm)
            exact absurd (hlt1.trans hlt2) (lt_irrefl _)
      subst hxy
      have hmem : ∀ z, z ∈ L1 ↔ z ∈ L2 := by
        intro z
        constructor
        · intro hz
          rcases List.mem_cons.1 ((hm z).1 (List.mem_cons_of_mem x hz)) with rfl | hz2
          · exact absurd (hx1 (keyOf z.1) (List.mem_map_of_mem _ hz)) (lt_irrefl _)
          · exact hz2
        · intro hz
          rcases List.mem_cons.1 ((hm z).2 (List.mem_cons_of_mem x hz)) with rfl | hz2
          · exact absurd (hy2 (keyOf z.1) (List.mem_map_of_mem _ hz)) (lt_irrefl _)
          · exact hz2
      rw [ih L2 h1 h2 hmem]

theorem find?_min_key (keyOf : K → α) (p : K × V → Bool) (L : List (K × V))
    (hs : (L.map fun x => keyOf x.1).Sorted (· < ·)) (x : K × V)
    (hx : L.find? p = some x) :
    ∀ y ∈ L, p y = true → keyOf x.1 ≤ keyOf y.1 := by
  induction L with
  | nil => simp at hx
  | cons a L ih =>
    simp only [List.map_cons, List.sorted_cons] at hs
    obtain ⟨ha, hs⟩ := hs
    intro y hy hpy
    by_cases hpa : p a = true
    · rw [List.find?_cons_of_pos _ hpa] at hx
      cases hx
      rcases List.mem_cons.1 hy with rfl | hy
      · exact le_refl _
      · exact le_of_lt (ha (keyOf y.1) (List.mem_map_of_mem _ hy))
    · rw [List.find?_cons_of_neg _ hpa] at hx
      rcases List.mem_cons.1 hy with rfl | hy
      · exact absurd hpy hpa
      · exact ih hs hx y hy hpy

theorem iterRange_none (keyOf : K → α) (t : Tree K V) (fuel : Nat) (last : Option α) :
    iterRange keyOf t fuel (none, last) = .ok [] := by
  cases fuel <;> rfl

/-- Splitting off the head of a bounded segment of a sorted list: with `ef`
the entry at the lower endpoint and `f2` the smallest key beyond it, the
segment is `ef` followed by the segment from `f2`. -/
theorem seg_cons (keyOf : K → α) (L : List (K × V))
    (hs : (L.map fun p => keyOf p.1).Sorted (· < ·)) (ef : K × V) (f f2 l : α)
    (hmem : ef ∈ L) (hkey : keyOf ef.1 = f) (hlt : f < f2)
    (hmin : ∀ y ∈ L, f < keyOf y.1 → f2 ≤ keyOf y.1) (hfl : f ≤ l) :
    L.filter (fun p => decide (f ≤ keyOf p.1) && decide (keyOf p.1 ≤ l)) =
      ef :: L.filter (fun p => decide (f2 ≤ keyOf p.1) && decide (keyOf p.1 ≤ l)) := by
  induction L with
  | nil => simp at hmem
  | cons a L ih =>
    simp only [List.map_cons, List.sorted_cons] at hs
    obtain ⟨ha, hs⟩ := hs
    rcases lt_trichotomy (keyOf a.1) f with hc | hc | hc
    · -- `a` is below the range and below `f2`; both filters skip it
      have hef : ef ∈ L := by
        rcases List.mem_cons.1 hmem with rfl | hm
        · exact absurd hkey (ne_of_lt hc)
        · exact hm
      rw [List.filter_cons_of_neg (by simp [not_le_of_gt hc]),
        List.filter_cons_of_neg (by simp [not_le_of_gt (lt_trans hc hlt)])]
      exact ih hs hef fun y hy => hmin y (List.mem_cons_of_mem a hy)
    · -- `a` is the entry at `f`, hence `ef` itself
      have haef : a = ef := by
        rcases List.mem_cons.1 hmem with rfl | hm
        · rfl
        · have := ha (keyOf ef.1) (List.mem_map_of_mem _ hm)
          rw [hkey, ← hc] at this
          exact absurd this (lt_irrefl _)
      subst haef
      rw [List.filter_cons_of_pos (by simp [hc, le_of_eq hc.symm, hfl, hc ▸ hfl]),
        List.filter_cons_of_neg (by simp [hc, not_le_of_gt hlt])]
      refine congrArg (a :: ·) (List.filter_congr ?_)
      intro y hy
      have hgt : f < keyOf y.1 := hc ▸ ha (keyOf y.1) (List.mem_map_of_mem _ hy)
      have hge := hmin y (List.mem_cons_of_mem a hy) hgt
      simp [le_of_lt hgt, hge]
    · -- impossible: `ef` would sit before `a` in sorted order
      exfalso
      rcases List.mem_cons.1 hmem with rfl | hm
      · exact absurd hkey (ne_of_gt hc)
      · have := ha (keyOf ef.1) (List.mem_map_of_mem _ hm)
        rw [hkey] at this
        exact absurd (hc.trans this) (lt_irrefl _)

/-- Iterating the narrowing range `[f, l]` by repeated `pop_first` never
hits the "Invalid node range" panic and yields exactly the in-order entries
whose key parts lie between the endpoints, provided both endpoints are keys
of the search tree and `f ≤ l`. -/
theorem iterRange_seg (keyOf : K → α) (t : Tree K V) (hb : BST keyOf t) :
    ∀ fuel f l ef el, find keyOf f t = some ef → find keyOf l t = some el → f ≤ l →
      ((toList t).filter fun p => decide (f ≤ keyOf p.1) && decide (keyOf p.1 ≤ l)).length
        < fuel →
      iterRange keyOf t fuel (some f, some l) =
        .ok ((toList t).filter fun p => decide (f ≤ keyOf p.1) && decide (keyOf p.1 ≤ l)) := by
  have hsort : ((toList t).map fun p => keyOf p.1).Sorted (· < ·) := by
    have := (bst_iff_sorted keyOf t).1 hb
    rwa [keyList] at this
  have hnd : ((toList t).map fun p => keyOf p.1).Nodup := hsort.nodup
  intro fuel
  induction fuel with
  | zero => intro f l ef el _ _ _ hlen; omega
  | succ n ih =>
    intro f l ef el hf hl hfl hlen
    obtain ⟨hmem_ef, hkey_ef⟩ := find_some_mem keyOf f t ef hf
    obtain ⟨hmem_el, hkey_el⟩ := find_some_mem keyOf l t el hl
    by_cases hfeq : l = f
    · -- the two endpoints coincide: the last pop
      subst hfeq
      have hfil : (toList t).filter
          (fun p => decide (l ≤ keyOf p.1) && decide (keyOf p.1 ≤ l)) = [ef] := by
        rw [List.filter_congr (q := fun p => decide (keyOf p.1 = keyOf ef.1)) ?_]
        · exact filter_key_eq keyOf (toList t) hnd ef hmem_ef
        · intro x hx
          rw [hkey_ef, Bool.eq_iff_iff]
          simp only [Bool.and_eq_true, decide_eq_true_eq]
          constructor
          · exact fun hc => le_antisymm hc.2 hc.1
          · exact fun hc => ⟨le_of_eq hc.symm, le_of_eq hc⟩
      rw [hfil]
      show (match popFirstIter keyOf t (some l, some l) with
        | Except.error _ => Except.error ()
        | Except.ok none => Except.ok []
        | Except.ok (some (e, st2)) => (iterRange keyOf t n st2).map fun es => e :: es) = _
      simp only [popFirstIter, hf, if_true, eq_self_iff_true]
      rw [iterRange_none]
      rfl
    · -- strictly before the last node: advance to the successor
      have hflt : f < l := lt_of_le_of_ne hfl fun hc => hfeq hc.symm
      have hsucc := succEntry_spec keyOf f t hb ef hf none
      rw [Option.or_none] at hsucc
      cases hsE : (toList t).find? fun p => decide (f < keyOf p.1) with
      | none =>
        exfalso
        rw [List.find?_eq_none] at hsE
        exact hsE el hmem_el (by simp [hkey_el, hflt])
      | some nxt =>
        have hmem_nxt : nxt ∈ toList t := List.mem_of_find?_eq_some hsE
        have hgt_nxt : f < keyOf nxt.1 := by
          have := List.find?_some hsE
          simpa using this
        have hmin_nxt := find?_min_key keyOf _ (toList t) hsort nxt hsE
        have hle_nxt : keyOf nxt.1 ≤ l := by
          have := hmin_nxt el hmem_el (by simp [hkey_el, hflt])
          rwa [hkey_el] at this
        have hfind_nxt : find keyOf (keyOf nxt.1) t = some nxt :=
          find_mem_unique keyOf t nxt hb hmem_nxt
        have hseg := seg_cons keyOf (toList t) hsort ef f (keyOf nxt.1) l hmem_ef hkey_ef
          hgt_nxt (fun y hy hgty => hmin_nxt y hy (by simpa using hgty)) hfl
        rw [hseg]
        show (match popFirstIter keyOf t (some f, some l) with
          | Except.error _ => Except.error ()
          | Except.ok none => Except.ok []
          | Except.ok (some (e, st2)) => (iterRange keyOf t n st2).map fun es => e :: es) = _
        simp only [popFirstIter, hf]
        rw [if_neg (show ¬(some l = some f) by simpa using hfeq), hsucc, hsE]
        dsimp only
        have hlen2 : ((toList t).filter fun p =>
            decide (keyOf nxt.1 ≤ keyOf p.1) && decide (keyOf p.1 ≤ l)).length < n := by
          rw [hseg] at hlen
          simp only [List.length_cons] at hlen
          omega
        rw [ih (keyOf nxt.1) l nxt el hfind_nxt hl hle_nxt hlen2]
        rfl

/-! ### `find_range` returns endpoints that are nodes of the tree -/

theorem findFirstNode_entry (t : Tree K V) (e : K × V) (hf : findFirstNode t = some e) :
    e ∈ toList t := by
  rw [findFirstNode_spec] at hf
  cases hL : toList t with
  | nil => rw [hL] at hf; cases hf
  | cons x xs =>
    rw [hL] at hf
    injection hf with hx
    subst hx
    simp [hL]

theorem findLastNode_entry (t : Tree K V) (e : K × V) (hf : findLastNode t = some e) :
    e ∈ toList t := by
  rw [findLastNode_spec] at hf
  cases hL : (toList t).reverse with
  | nil => rw [hL] at hf; cases hf
  | cons x xs =>
    rw [hL] at hf
    injection hf with hx
    subst hx
    rw [← List.mem_reverse, hL]
    simp

theorem findStartBoundIncluded_entry (keyOf : K → α) (q : α) (t : Tree K V)
    (hb : BST keyOf t) (f : K) (hf : findStartBoundIncluded keyOf q t = some f) :
    ∃ e ∈ toList t, e.1 = f := by
  rw [findStartBoundIncluded, fsbIncGo_spec keyOf q t hb none, Option.or_none] at hf
  cases hE : (toList t).find? fun p => decide (q ≤ keyOf p.1) with
  | none => rw [hE] at hf; cases hf
  | some e =>
    rw [hE] at hf
    cases hf
    exact ⟨e, List.mem_of_find?_eq_some hE, rfl⟩

theorem findStartBoundExcluded_entry (keyOf : K → α) (q : α) (t : Tree K V)
    (hb : BST keyOf t) (f : K) (hf : findStartBoundExcluded keyOf q t = some f) :
    ∃ e ∈ toList t, e.1 = f := by
  rw [findStartBoundExcluded, fsbExcGo_spec keyOf q t hb none, Option.or_none] at hf
  cases hE : (toList t).find? fun p => decide (q < keyOf p.1) with
  | none => rw [hE] at hf; cases hf
  | some e =>
    rw [hE] at hf
    cases hf
    exact ⟨e, List.mem_of_find?_eq_some hE, rfl⟩

theorem findEndBoundIncluded_entry (keyOf : K → α) (q : α) (t : Tree K V)
    (hb : BST keyOf t) (f : K) (hf : findEndBoundIncluded keyOf q t = some f) :
    ∃ e ∈ toList t, e.1 = f := by
  rw [findEndBoundIncluded, febIncGo_spec keyOf q t hb none, Option.or_none] at hf
  cases hE : (toList t).reverse.find? fun p => decide (keyOf p.1 ≤ q) with
  | none => rw [hE] at hf; cases hf
  | some e =>
    rw [hE] at hf
    cases hf
    exact ⟨e, List.mem_reverse.1 (List.mem_of_find?_eq_some hE), rfl⟩

theorem findEndBoundExcluded_entry (keyOf : K → α) (q : α) (t : Tree K V)
    (hb : BST keyOf t) (f : K) (hf : findEndBoundExcluded keyOf q t = some f) :
    ∃ e ∈ toList t, e.1 = f := by
  rw [findEndBoundExcluded, febExcGo_spec keyOf q t hb none, Option.or_none] at hf
  cases hE : (toList t).reverse.find? fun p => decide (keyOf p.1 < q) with
  | none => rw [hE] at hf; cases hf
  | some e =>
    rw [hE] at hf
    cases hf
    exact ⟨e, List.mem_reverse.1 (List.mem_of_find?_eq_some hE), rfl⟩

/-- The resolved start endpoint is a node of the tree. -/
theorem resolveStart_entry (keyOf : K → α) (sb : RBound α) (t : Tree K V)
    (hb : BST keyOf t) (f : K) (hf : resolveStart keyOf sb t = some f) :
    ∃ e ∈ toList t, e.1 = f := by
  cases sb with
  | unbounded =>
    simp only [resolveStart, Option.map_eq_some'] at hf
    obtain ⟨e, he, rfl⟩ := hf
    exact ⟨e, findFirstNode_entry t e he, rfl⟩
  | included q => exact findStartBoundIncluded_entry keyOf q t hb f hf
  | excluded q => exact findStartBoundExcluded_entry keyOf q t hb f hf

/-- The resolved end endpoint is a node of the tree. -/
theorem resolveEnd_entry (keyOf : K → α) (eb : RBound α) (t : Tree K V)
    (hb : BST keyOf t) (l : K) (hl : resolveEnd keyOf eb t = some l) :
    ∃ e ∈ toList t, e.1 = l := by
  cases eb with
  | unbounded =>
    simp only [resolveEnd, Option.map_eq_some'] at hl
    obtain ⟨e, he, rfl⟩ := hl
    exact ⟨e, findLastNode_entry t e he, rfl⟩
  | included q => exact findEndBoundIncluded_entry keyOf q t hb l hl
  | excluded q => exact findEndBoundExcluded_entry keyOf q t hb l hl

/-- A successful nonempty `find_range` returns two nodes of the tree in
nondecreasing key order (the empty-range normalisation guarantees the
order). -/
theorem findRange_ok_spec (keyOf : K → α) (sb eb : RBound α) (t : Tree K V)
    (hb : BST keyOf t) (f l : K)
    (hres : findRange keyOf sb eb t = .ok (some f, some l)) :
    (∃ ef ∈ toList t, ef.1 = f) ∧ (∃ el ∈ toList t, el.1 = l) ∧ keyOf f ≤ keyOf l := by
  unfold findRange at hres
  split_ifs at hres
  cases hF : resolveStart keyOf sb t with
  | none => rw [hF] at hres; cases hres
  | some f0 =>
    rw [hF] at hres
    dsimp only at hres
    cases hL : resolveEnd keyOf eb t with
    | none => rw [hL] at hres; cases hres
    | some l0 =>
      rw [hL] at hres
      dsimp only at hres
      split_ifs at hres with hord
      · cases hres
      · simp only [Except.ok.injEq, Prod.mk.injEq, Option.some.injEq] at hres
        obtain ⟨rfl, rfl⟩ := hres
        exact ⟨resolveStart_entry keyOf sb t hb f0 hF, resolveEnd_entry keyOf eb t hb l0 hL,
          not_lt.1 hord⟩

/-! ### Set algebra over sorted element sequences -/

theorem filter_dropWhile_eq (P Q : K → Bool) (l : List K)
    (h : ∀ x ∈ l, Q x = true → P x = false) :
    (l.dropWhile Q).filter P = l.filter P := by
  induction l with
  | nil => rfl
  | cons a l ih =>
    by_cases hq : Q a = true
    · rw [List.dropWhile_cons_of_pos hq, List.filter_cons_of_neg (by simp [h a (List.mem_cons_self a l) hq])]
      exact ih fun x hx => h x (List.mem_cons_of_mem a hx)
    · rw [List.dropWhile_cons_of_neg hq]

/-- The key parts of a `dropLt` are the `dropWhile` of the key parts. -/
theorem dropLt_map (keyOf : K → α) (q : α) (xs : List K) :
    (dropLt keyOf q xs).map keyOf = (xs.map keyOf).dropWhile fun x => decide (x < q) := by
  unfold dropLt
  rw [List.dropWhile_map]
  rfl

/-- `Intersection` (set.rs lines 544-570) yields exactly the left-hand
elements whose key part also occurs on the right, in left-to-right order:
the merge-join with seek-ahead resets computes a filter of the left
sequence. -/
theorem interList_eq_filter (keyOf : K → α) : ∀ xs ys : List K,
    (xs.map keyOf).Sorted (· < ·) → (ys.map keyOf).Sorted (· < ·) →
    interList keyOf xs ys = xs.filter fun x => decide (keyOf x ∈ ys.map keyOf) := by
  intro xs ys
  induction xs, ys using interList.induct keyOf with
  | case1 ys =>
    intro _ _
    rw [interList]
    simp
  | case2 a xs =>
    intro _ _
    rw [interList]
    symm
    rw [List.filter_eq_nil_iff]
    intro x _
    simp
  | case3 a xs b ys hab ih =>
    intro hsx hsy
    rw [interList, if_pos hab]
    have hsub : ((dropLt keyOf (keyOf b) (a :: xs)).map keyOf).Sorted (· < ·) := by
      rw [dropLt_map]
      exact hsx.sublist (List.dropWhile_sublist _)
    rw [ih hsub hsy]
    refine filter_dropWhile_eq _ _ (a :: xs) ?_
    intro x _ hq
    simp only [decide_eq_true_eq] at hq
    simp only [decide_eq_false_iff_not]
    intro hmem
    have hge : keyOf b ≤ keyOf x := by
      simp only [List.map_cons, List.mem_cons] at hmem
      rcases hmem with hm | hm
      · exact le_of_eq hm.symm
      · simp only [List.map_cons, List.sorted_cons] at hsy
        exact le_of_lt (hsy.1 _ hm)
    exact absurd (lt_of_lt_of_le hq hge) (lt_irrefl _)
  | case4 a xs b ys hab hba ih =>
    intro hsx hsy
    rw [interList, if_neg hab, if_pos hba]
    have hsub : ((dropLt keyOf (keyOf a) (b :: ys)).map keyOf).Sorted (· < ·) := by
      rw [dropLt_map]
      exact hsy.sublist (List.dropWhile_sublist _)
    rw [ih hsx hsub]
    refine List.filter_congr ?_
    intro x hx
    have hxge : keyOf a ≤ keyOf x := by
      simp only [List.map_cons, List.sorted_cons] at hsx
      rcases List.mem_cons.1 hx with rfl | hx2
      · exact le_refl _
      · exact le_of_lt (hsx.1 (keyOf x) (List.mem_map_of_mem _ hx2))
    rw [Bool.eq_iff_iff]
    simp only [decide_eq_true_eq]
    rw [dropLt_map]
    constructor
    · intro hmem
      exact (List.dropWhile_sublist _).subset hmem
    · intro hmem
      have hsplit := List.takeWhile_append_dropWhile
        (p := fun x => decide (x < keyOf a)) (l := (b :: ys).map keyOf)
      rw [← hsplit, List.mem_append] at hmem
      rcases hmem with hmem | hmem
      · have := List.mem_takeWhile_imp hmem
        simp only [decide_eq_true_eq] at this
        exact absurd (lt_of_lt_of_le this hxge) (lt_irrefl _)
      · exact hmem
  | case5 a xs b ys hab hba ih =>
    intro hsx hsy
    have hk : keyOf a = keyOf b := le_antisymm (not_lt.1 hba) (not_lt.1 hab)
    simp only [List.map_cons, List.sorted_cons] at hsx hsy
    rw [interList, if_neg hab, if_neg hba]
    rw [ih hsx.2 hsy.2]
    rw [List.filter_cons_of_pos (by simp [hk])]
    refine congrArg (a :: ·) (List.filter_congr ?_)
    intro x hx
    rw [Bool.eq_iff_iff]
    simp only [List.map_cons, List.mem_cons, decide_eq_true_eq]
    have hxa : keyOf a < keyOf x := hsx.1 (keyOf x) (List.mem_map_of_mem _ hx)
    constructor
    · exact fun hm => Or.inr hm
    · intro hm
      rcases hm with hm | hm
      · rw [hk] at hxa
        exact absurd hm.symm (ne_of_lt hxa)
      · exact hm

/-- `find?` picks the head that survives dropping the prefix of failures. -/
theorem find?_eq_head?_dropWhile {b : Type} (p : b → Bool) (l : List b) :
    l.find? p = (l.dropWhile fun x => !p x).head? := by
  induction l with
  | nil => rfl
  | cons a l ih =>
    cases hp : p a with
    | true =>
      rw [List.find?_cons_of_pos _ hp, List.dropWhile_cons_of_neg (by simp [hp])]
      rfl
    | false =>
      rw [List.find?_cons_of_neg _ (by simp [hp]), List.dropWhile_cons_of_pos (by simp [hp])]
      exact ih

/-- The bridge between `reset_range_start_bound_included` (map.rs lines
545-562) and the list model of the seek-ahead: re-resolving the inclusive
start bound at `q` lands on the head of the sorted key sequence with the
keys `< q` dropped (`dropLt`). -/
theorem findStartBoundIncluded_reset (keyOf : K → α) (q : α) (t : Tree K V)
    (hb : BST keyOf t) :
    findStartBoundIncluded keyOf q t =
      (dropLt keyOf q ((toList t).map Prod.fst)).head? := by
  have hpred : (fun x : K × V => !decide (q ≤ keyOf x.1)) =
      ((fun x : K => decide (keyOf x < q)) ∘ Prod.fst) := by
    funext e
    simp only [Function.comp_apply]
    rw [← decide_not]
    exact decide_eq_decide.2 (not_le (a := q) (b := keyOf e.1))
  rw [findStartBoundIncluded, fsbIncGo_spec keyOf q t hb none, Option.or_none,
    find?_eq_head?_dropWhile, ← List.head?_map, dropLt, List.dropWhile_map, ← hpred]

/-- Two strictly sorted lists with the same members are equal. -/
theorem sorted_ext_elems (L1 : List α) : ∀ L2 : List α, L1.Sorted (· < ·) →
    L2.Sorted (· < ·) → (∀ x, x ∈ L1 ↔ x ∈ L2) → L1 = L2 := by
  induction L1 with
  | nil =>
    intro L2 _ _ hm
    cases L2 with
    | nil => rfl
    | cons b ys => exact absurd ((hm b).2 (List.mem_cons_self b ys)) (List.not_mem_nil b)
  | cons a xs ih =>
    intro L2 h1 h2 hm
    cases L2 with
    | nil => exact absurd ((hm a).1 (List.mem_cons_self a xs)) (List.not_mem_nil a)
    | cons b ys =>
      simp only [List.sorted_cons] at h1 h2
      have hab : a = b := by
        have ha2 : a ∈ b :: ys := (hm a).1 (List.mem_cons_self a xs)
        have hb1 : b ∈ a :: xs := (hm b).2 (List.mem_cons_self b ys)
        rcases List.mem_cons.1 ha2 with h | h
        · exact h
        · rcases List.mem_cons.1 hb1 with h' | h'
          · exact h'.symm
          · exact absurd (lt_trans (h1.1 b h') (h2.1 a h)) (lt_irrefl a)
      subst hab
      refine congrArg (a :: ·) (ih ys h1.2 h2.2 fun x => ⟨?_, ?_⟩)
      · intro hx
        rcases List.mem_cons.1 ((hm x).1 (List.mem_cons_of_mem a hx)) with rfl | h
        · exact absurd (h1.1 x hx) (lt_irrefl x)
        · exact h
      · intro hx
        rcases List.mem_cons.1 ((hm x).2 (List.mem_cons_of_mem a hx)) with rfl | h
        · exact absurd (h2.1 x hx) (lt_irrefl x)
        · exact h

/-- The multiples of a positive constant listed in order are sorted. -/
theorem sorted_mul_range (c M : Nat) (hc : 0 < c) :
    ((List.range (M + 1)).map fun i => c * i).Sorted (· < ·) := by
  refine List.Pairwise.map _ ?_ (List.pairwise_lt_range (M + 1))
  intro a b hab
  exact mul_lt_mul_of_pos_left hab hc

/-- Scenario C of the spec: `{0,2,…,2N} ∩ {0,3,…,3N}` is exactly the
ascending list of multiples of 6 up to `2N`. -/
theorem inter_evens_threes (N : Nat) :
    interList (fun n : Nat => n) (evens N) (threes N) = sixes N := by
  have h2 : (evens N).Sorted (· < ·) := sorted_mul_range 2 N (by omega)
  have h3 : (threes N).Sorted (· < ·) := sorted_mul_range 3 N (by omega)
  have h6 : (sixes N).Sorted (· < ·) := sorted_mul_range 6 (N / 3) (by omega)
  rw [interList_eq_filter (fun n : Nat => n) (evens N) (threes N)
    (by simpa using h2) (by simpa using h3)]
  refine sorted_ext_elems _ _ (List.Pairwise.filter _ h2) h6 ?_
  intro x
  simp only [List.mem_filter, evens, threes, sixes, List.mem_map, List.mem_range,
    decide_eq_true_eq, exists_eq_right, exists_exists_and_eq_and]
  constructor
  · rintro ⟨⟨i, hi, rfl⟩, j, hj, hji⟩
    exact ⟨i / 3, by omega, by omega⟩
  · rintro ⟨m, hm, rfl⟩
    exact ⟨⟨3 * m, by omega, by omega⟩, 2 * m, by omega, by omega⟩

/-- Every element the union iterator yields comes from one of its inputs. -/
theorem unionList_subset (keyOf : K → α) : ∀ xs ys : List K, ∀ x : K,
    x ∈ unionList keyOf xs ys → x ∈ xs ∨ x ∈ ys := by
  intro xs ys
  induction xs, ys using unionList.induct keyOf with
  | case1 ys =>
    intro x hx
    rw [unionList] at hx
    exact Or.inr hx
  | case2 xs h =>
    intro x hx
    cases xs with
    | nil => exact absurd rfl h
    | cons a xs2 =>
      simp only [unionList] at hx
      exact Or.inl hx
  | case3 a xs b ys hab ih =>
    intro x hx
    rw [unionList, if_pos hab] at hx
    rcases List.mem_cons.1 hx with rfl | hx2
    · exact Or.inl (List.mem_cons_self _ _)
    · rcases ih x hx2 with h | h
      · exact Or.inl (List.mem_cons_of_mem a h)
      · exact Or.inr h
  | case4 a xs b ys hab hba ih =>
    intro x hx
    rw [unionList, if_neg hab, if_pos hba] at hx
    rcases List.mem_cons.1 hx with rfl | hx2
    · exact Or.inr (List.mem_cons_self _ _)
    · rcases ih x hx2 with h | h
      · exact Or.inl h
      · exact Or.inr (List.mem_cons_of_mem b h)
  | case5 a xs b ys hab hba ih =>
    intro x hx
    rw [unionList, if_neg hab, if_neg hba] at hx
    rcases List.mem_cons.1 hx with rfl | hx2
    · exact Or.inl (List.mem_cons_self _ _)
    · rcases ih x hx2 with h | h
      · exact Or.inl (List.mem_cons_of_mem a h)
      · exact Or.inr (List.mem_cons_of_mem b h)

/-- Inserting a key greater than every key of a sorted association list
appends at the end. -/
theorem insSorted_append_end (keyOf : K → α) (k : K) (v : V) (L : List (K × V))
    (h : ∀ p ∈ L, keyOf p.1 < keyOf k) : insSorted keyOf k v L = L ++ [(k, v)] := by
  induction L with
  | nil => rfl
  | cons p ps ih =>
    rw [insSorted, if_neg (not_lt_of_gt (h p (List.mem_cons_self p ps))),
      ih fun q hq => h q (List.mem_cons_of_mem p hq)]
    rfl

theorem find_eq_none_of_not_mem_keys (keyOf : K → α) (q : α) (t : Tree K V)
    (h : ∀ p ∈ toList t, keyOf p.1 ≠ q) : find keyOf q t = none := by
  cases hF : find keyOf q t with
  | none => rfl
  | some e =>
    obtain ⟨hmem, hkey⟩ := find_some_mem keyOf q t e hF
    exact absurd hkey (h e hmem)

/-- Building a set by inserting an ascending element sequence: each insert
lands at a vacant position past every present key, so the in-order entries
are exactly the sequence. -/
theorem buildSet_go (keyOf : K → α) : ∀ (xs : List K) (m : Map K Unit),
    Inv keyOf m →
    (((toList m.root).map fun p => keyOf p.1) ++ xs.map keyOf).Sorted (· < ·) →
    toList (xs.foldl (fun m x => (m.insert keyOf x ()).1) m).root =
      toList m.root ++ xs.map fun x => (x, ()) := by
  intro xs
  induction xs with
  | nil =>
    intro m _ _
    simp
  | cons x xs ih =>
    intro m hinv hs
    have hlt : ∀ p ∈ toList m.root, keyOf p.1 < keyOf x := by
      intro p hp
      rw [List.map_cons] at hs
      exact (List.pairwise_append.1 hs).2.2 (keyOf p.1) (List.mem_map_of_mem _ hp)
        (keyOf x) (List.mem_cons_self _ _)
    have hfind : find keyOf (keyOf x) m.root = none :=
      find_eq_none_of_not_mem_keys keyOf (keyOf x) m.root fun p hp => ne_of_lt (hlt p hp)
    obtain ⟨t2, flag, heq, _, hlist2, _, _, _, _⟩ :=
      insertGo_notfound keyOf x () m.root hfind ⟨hinv.2.2.2.1, hinv.2.2.1⟩ hinv.1
    have hroot : ((m.insert keyOf x ()).1).root = t2 := by
      simp [Map.insert, heq]
    have hlist3 : toList ((m.insert keyOf x ()).1).root = toList m.root ++ [(x, ())] := by
      rw [hroot, hlist2, insSorted_append_end keyOf x () (toList m.root) hlt]
    rw [List.foldl_cons,
      ih ((m.insert keyOf x ()).1) (insert_preserves_inv keyOf m x () hinv)
        (by rw [hlist3]; simpa [List.append_assoc] using hs),
      hlist3]
    simp

/-- `FromIterator` over an ascending element sequence stores exactly that
sequence. -/
theorem buildSet_toList (keyOf : K → α) (xs : List K)
    (hs : (xs.map keyOf).Sorted (· < ·)) :
    toList (buildSet keyOf xs).root = xs.map fun x => (x, ()) := by
  have h := buildSet_go keyOf xs Map.empty (inv_empty keyOf)
    (by simpa [Map.empty, toList] using hs)
  simpa [buildSet, Map.empty, toList] using h

/-- The guard of `find_range` (map.rs lines 496-513) spelt out: a panic is a
bounded start after a bounded end, or two exclusive bounds at the same key. -/
theorem rangeInvalid_iff (sb eb : RBound α) :
    rangeInvalid sb eb = true ↔
      ∃ s e, (sb = RBound.included s ∨ sb = RBound.excluded s) ∧
        (eb = RBound.included e ∨ eb = RBound.excluded e) ∧
        (e < s ∨ (s = e ∧ sb = RBound.excluded s ∧ eb = RBound.excluded e)) := by
  cases sb <;> cases eb <;> simp [rangeInvalid] <;> tauto

theorem findRange_error_iff (keyOf : K → α) (sb eb : RBound α) (t : Tree K V) :
    findRange keyOf sb eb t = .error () ↔ rangeInvalid sb eb = true := by
  unfold findRange
  split_ifs with h
  · simp [h]
  · simp only [h, iff_false, Bool.not_eq_true]
    cases hF : resolveStart keyOf sb t with
    | none => simp
    | some f =>
      dsimp only
      cases hL : resolveEnd keyOf eb t with
      | none => simp
      | some l =>
        dsimp only
        split_ifs <;> simp

/-! ### The claims -/

/-- Claim C1: the spec says map equality is sorted-sequence comparison, so
maps of different lengths are never equal, even when one sequence is a
prefix of the other.  The code (`impl PartialEq for AvlTreeMap::eq`, map.rs
lines 1167-1171) compares `self.len()` with *itself* and `zip` truncates to
the shorter sequence, so a map whose sorted sequence is a strict prefix of
another map compares equal to it: on these two reachable maps `mapEq` is
`true` although the sequences and the lengths differ — the claimed
equivalence fails in the code. -/
theorem c1_map_eq_prefix_bug :
    mapEq (Map.run (fun n : Nat => n) [Op.ins 1 2])
        (Map.run (fun n : Nat => n) [Op.ins 3 4, Op.ins 1 2]) = true ∧
    toList (Map.run (fun n : Nat => n) [Op.ins 1 2]).root ≠
      toList (Map.run (fun n : Nat => n) [Op.ins 3 4, Op.ins 1 2]).root ∧
    Map.len (Map.run (fun n : Nat => n) [Op.ins 1 2]) ≠
      Map.len (Map.run (fun n : Nat => n) [Op.ins 3 4, Op.ins 1 2]) := by
  refine ⟨?_, ?_, ?_⟩ <;> decide

/-- Claim C2: for every sequence of insert and remove operations starting
from the empty map, after each operation (i.e. after every prefix of the
sequence) the tree satisfies BST ordering, parent-pointer consistency, AVL
balance, correct stored heights, and `len()` equals the reachable node
count — the five conjuncts of `Inv`. -/
theorem c2_invariant_preservation (keyOf : K → α) (ops : List (Op α K V)) (p : Nat) :
    Inv keyOf (Map.run keyOf (ops.take p)) :=
  run_inv keyOf (ops.take p)

/-- Claim C3: removing a node that has a right child splices in that
subtree's minimum: the successor is the head of the right subtree's
in-order sequence (reached by walking left children, so it has no left
child), it is detached by attaching its right child in its place,
transplanted into the removed node's position, and the rebalance walk
starts at the successor's *original* parent (the unwinding inside
`popMin`) — except when that parent was the removed node itself
(`rl = leaf`), in which case `popMin` performs no rebalancing of its own
and the walk starts at the successor's *new* position, the `rebalanceNode`
of `unlink`. -/
theorem c3_delete_splice (keyOf : K → α) (l : Tree K V) (k : K) (v : V)
    (rl : Tree K V) (rk : K) (rv : V) (rr : Tree K V) (rh h : Nat)
    (hg : Good (Tree.node rl rk rv rr rh)) :
    removeGo keyOf (keyOf k) (Tree.node l k v (Tree.node rl rk rv rr rh) h) =
      (unlink l k v (Tree.node rl rk rv rr rh) h, some (k, v)) ∧
    ∃ sk sv r2,
      popMin (Tree.node rl rk rv rr rh) = some (sk, sv, r2) ∧
      (toList (Tree.node rl rk rv rr rh)).head? = some (sk, sv) ∧
      unlink l k v (Tree.node rl rk rv rr rh) h =
        (rebalanceNode (Tree.node l sk sv r2 h)).1 ∧
      (rl = Tree.leaf → sk = rk ∧ sv = rv ∧ r2 = rr) ∧
      (rl ≠ Tree.leaf → ∃ rl2, popMin rl = some (sk, sv, rl2) ∧
        r2 = (rebalanceNode (Tree.node rl2 rk rv rr rh)).1) := by
  obtain ⟨sk, sv, r2, heqp, hlistp, hgoodp, hhtp⟩ :=
    popMin_spec (Tree.node rl rk rv rr rh) hg (by simp)
  refine ⟨?_, sk, sv, r2, heqp, ?_, ?_, ?_, ?_⟩
  · simp only [removeGo]
    rw [if_neg (lt_irrefl _), if_neg (lt_irrefl _)]
  · rw [hlistp]
    rfl
  · simp only [unlink, heqp]
  · intro hrl
    subst hrl
    have hred : popMin (Tree.node (Tree.leaf : Tree K V) rk rv rr rh) =
        some (rk, rv, rr) := by
      rw [popMin_node]
      rfl
    rw [hred] at heqp
    simp only [Option.some.injEq, Prod.mk.injEq] at heqp
    exact ⟨heqp.1.symm, heqp.2.1.symm, heqp.2.2.symm⟩
  · intro hrl
    have hgl : Good rl := by
      rw [good_node_iff] at hg
      exact hg.2.2.2.1
    obtain ⟨sk2, sv2, rl2, heq2, hlist2, hgood2, hht2⟩ := popMin_spec rl hgl hrl
    have hstep : popMin (Tree.node rl rk rv rr rh) =
        some (sk2, sv2, (rebalanceNode (Tree.node rl2 rk rv rr rh)).1) := by
      rw [popMin_node, heq2]
    rw [hstep] at heqp
    simp only [Option.some.injEq, Prod.mk.injEq] at heqp
    obtain ⟨rfl, rfl, rfl⟩ := heqp
    exact ⟨rl2, heq2, rfl⟩

/-- Witness for C3 on a concrete AVL subtree whose right child has a left
descendant. -/
theorem c3_witness :
    removeGo (fun n : Nat => n) ((fun n : Nat => n) 2)
        (Tree.node (Tree.node Tree.leaf 1 0 Tree.leaf 0) 2 0
          (Tree.node (Tree.node Tree.leaf 3 0 Tree.leaf 0) 4 0
            (Tree.node Tree.leaf 5 0 Tree.leaf 0) 1) 2) =
      (unlink (Tree.node Tree.leaf 1 0 Tree.leaf 0) 2 0
        (Tree.node (Tree.node Tree.leaf 3 0 Tree.leaf 0) 4 0
          (Tree.node Tree.leaf 5 0 Tree.leaf 0) 1) 2, some (2, 0)) :=
  (c3_delete_splice (fun n : Nat => n) (Tree.node Tree.leaf 1 0 Tree.leaf 0) 2 0
    (Tree.node Tree.leaf 3 0 Tree.leaf 0) 4 0 (Tree.node Tree.leaf 5 0 Tree.leaf 0)
    1 2 (by decide)).1

/-- Claim C4: the intersection iterator yields exactly the left-hand
elements whose key occurs on the right — every common element, exactly
once, in ascending order; its merge-join advances the lagging side with a
seek-ahead reset whose tree-level form (`reset_range_start_bound_included`,
re-resolving the inclusive start bound) equals dropping the strictly
smaller prefix of the remaining sorted sequence (`dropLt`); and scenario C:
the sets `{0,2,…,2N}` and `{0,3,…,3N}` (stored by the tree exactly as
those ascending sequences) intersect to the ascending multiples of 6. -/
theorem c4_intersection (keyOf : K → α) [DecidableEq K] (xs ys : List K)
    (hsx : (xs.map keyOf).Sorted (· < ·)) (hsy : (ys.map keyOf).Sorted (· < ·)) :
    interList keyOf xs ys = (xs.filter fun x => decide (keyOf x ∈ ys.map keyOf)) ∧
    ((interList keyOf xs ys).map keyOf).Sorted (· < ·) ∧
    (∀ x, x ∈ interList keyOf xs ys ↔ x ∈ xs ∧ keyOf x ∈ ys.map keyOf) ∧
    (∀ x ∈ interList keyOf xs ys, (interList keyOf xs ys).count x = 1) ∧
    (∀ (q : α) (t : Tree K Unit), BST keyOf t →
      findStartBoundIncluded keyOf q t =
        (dropLt keyOf q ((toList t).map Prod.fst)).head?) ∧
    (∀ N : Nat,
      (toList (buildSet (fun n : Nat => n) (evens N)).root).map Prod.fst = evens N) ∧
    (∀ N : Nat,
      (toList (buildSet (fun n : Nat => n) (threes N)).root).map Prod.fst = threes N) ∧
    (∀ N : Nat, interList (fun n : Nat => n) (evens N) (threes N) = sixes N) := by
  have hfil := interList_eq_filter keyOf xs ys hsx hsy
  refine ⟨hfil, ?_, ?_, ?_, ?_, ?_, ?_, inter_evens_threes⟩
  · rw [hfil]
    exact hsx.sublist (List.Sublist.map keyOf (List.filter_sublist xs))
  · intro x
    rw [hfil]
    simp [List.mem_filter]
  · intro x hx
    have hnd : (interList keyOf xs ys).Nodup := by
      rw [hfil]
      exact (List.Nodup.of_map keyOf hsx.nodup).filter _
    exact List.count_eq_one_of_mem hnd hx
  · exact fun q t hb => findStartBoundIncluded_reset keyOf q t hb
  · intro N
    rw [buildSet_toList (fun n : Nat => n) (evens N)
      (by simpa using sorted_mul_range 2 N (by omega))]
    rw [List.map_map]
    show List.map id (evens N) = evens N
    exact List.map_id (evens N)
  · intro N
    rw [buildSet_toList (fun n : Nat => n) (threes N)
      (by simpa using sorted_mul_range 3 N (by omega))]
    rw [List.map_map]
    show List.map id (threes N) = threes N
    exact List.map_id (threes N)

/-- Witness for C4 on two concrete ascending sequences. -/
theorem c4_witness :
    interList (fun n : Nat => n) [0, 2, 4, 6] [0, 3, 6] =
      ([0, 2, 4, 6].filter fun x =>
        decide ((fun n : Nat => n) x ∈ [0, 3, 6].map fun n : Nat => n)) :=
  (c4_intersection (fun n : Nat => n) [0, 2, 4, 6] [0, 3, 6]
    (by decide) (by decide)).1

/-- Claim C5: `find_range` panics exactly when a bounded start key sorts
after a bounded end key, or both bounds are exclusive with equal keys
(`Except.error` is the panic); every accepted range iterates without error:
an empty resolution yields no elements, and a nonempty resolution `[f, l]`
yields exactly the in-order entries between the two endpoints. -/
theorem c5_range_validity (keyOf : K → α) (sb eb : RBound α) (t : Tree K V)
    (hb : BST keyOf t) :
    (findRange keyOf sb eb t = .error () ↔
      ∃ s e, (sb = RBound.included s ∨ sb = RBound.excluded s) ∧
        (eb = RBound.included e ∨ eb = RBound.excluded e) ∧
        (e < s ∨ (s = e ∧ sb = RBound.excluded s ∧ eb = RBound.excluded e))) ∧
    (findRange keyOf sb eb t = .ok (none, none) →
      iterRange keyOf t (size t + 1) (none, none) = .ok []) ∧
    (∀ f l, findRange keyOf sb eb t = .ok (some f, some l) →
      iterRange keyOf t (size t + 1) (some (keyOf f), some (keyOf l)) =
        .ok ((toList t).filter fun p =>
          decide (keyOf f ≤ keyOf p.1) && decide (keyOf p.1 ≤ keyOf l))) := by
  refine ⟨(findRange_error_iff keyOf sb eb t).trans (rangeInvalid_iff sb eb), ?_, ?_⟩
  · intro _
    exact iterRange_none keyOf t _ none
  · intro f l hres
    obtain ⟨⟨ef, hefmem, hef1⟩, ⟨el, helmem, hel1⟩, hord⟩ :=
      findRange_ok_spec keyOf sb eb t hb f l hres
    have hfindf : find keyOf (keyOf f) t = some ef := by
      rw [← hef1]
      exact find_mem_unique keyOf t ef hb hefmem
    have hfindl : find keyOf (keyOf l) t = some el := by
      rw [← hel1]
      exact find_mem_unique keyOf t el hb helmem
    refine iterRange_seg keyOf t hb (size t + 1) (keyOf f) (keyOf l) ef el
      hfindf hfindl hord ?_
    have h1 := List.length_filter_le
      (fun p => decide (keyOf f ≤ keyOf p.1) && decide (keyOf p.1 ≤ keyOf l)) (toList t)
    rw [size_eq_length]
    omega

/-- Witness for C5: an inclusive range over a three-node tree iterates all
entries without error. -/
theorem c5_witness :
    iterRange (fun n : Nat => n)
      (Tree.node (Tree.node Tree.leaf 1 0 Tree.leaf 0) 2 0
        (Tree.node Tree.leaf 3 0 Tree.leaf 0) 1)
      (size (Tree.node (Tree.node Tree.leaf 1 0 Tree.leaf 0) 2 0
        (Tree.node Tree.leaf 3 0 Tree.leaf 0) 1) + 1)
      (some ((fun n : Nat => n) 1), some ((fun n : Nat => n) 3)) =
      .ok ((toList (Tree.node (Tree.node Tree.leaf 1 0 Tree.leaf 0) 2 0
        (Tree.node Tree.leaf 3 0 Tree.leaf 0) 1)).filter fun p =>
          decide ((fun n : Nat => n) 1 ≤ (fun n : Nat => n) p.1) &&
            decide ((fun n : Nat => n) p.1 ≤ (fun n : Nat => n) 3)) :=
  (c5_range_validity (fun n : Nat => n) (RBound.included 1) (RBound.included 3)
    (Tree.node (Tree.node Tree.leaf 1 0 Tree.leaf 0) 2 0
      (Tree.node Tree.leaf 3 0 Tree.leaf 0) 1) (by decide)).2.2 1 3 rfl

/-- Claim C6: inserting an absent key rebalances on the walk from the new
leaf's parent up through the ancestors and stops immediately after the
first rotation (the stop flag propagates and every level above leaves its
node untouched; a level whose recursive call reports no stop applies
`rebalanceNode`), and stopping there is sufficient: after `insert` returns,
every node of the tree is AVL-balanced with correct stored heights. -/
theorem c6_rebalance_once (keyOf : K → α) (m : Map K V) (k : K) (v : V)
    (hinv : Inv keyOf m) (habs : find keyOf (keyOf k) m.root = none) :
    BalancedT ((m.insert keyOf k v).1).root ∧
    HeightOk ((m.insert keyOf k v).1).root ∧
    (∀ (l r : Tree K V) (nk : K) (nv : V) (h : Nat) (l2 : Tree K V) (old : Option V),
      keyOf k < keyOf nk → insertGo keyOf k v l = (l2, true, old) →
      insertGo keyOf k v (Tree.node l nk nv r h) = (Tree.node l2 nk nv r h, true, old)) ∧
    (∀ (l r : Tree K V) (nk : K) (nv : V) (h : Nat) (l2 : Tree K V) (old : Option V),
      keyOf k < keyOf nk → insertGo keyOf k v l = (l2, false, old) →
      insertGo keyOf k v (Tree.node l nk nv r h) =
        ((rebalanceNode (Tree.node l2 nk nv r h)).1,
          (rebalanceNode (Tree.node l2 nk nv r h)).2, old)) ∧
    (∀ (l r : Tree K V) (nk : K) (nv : V) (h : Nat) (r2 : Tree K V) (old : Option V),
      keyOf nk < keyOf k → insertGo keyOf k v r = (r2, true, old) →
      insertGo keyOf k v (Tree.node l nk nv r h) = (Tree.node l nk nv r2 h, true, old)) ∧
    (∀ (l r : Tree K V) (nk : K) (nv : V) (h : Nat) (r2 : Tree K V) (old : Option V),
      keyOf nk < keyOf k → insertGo keyOf k v r = (r2, false, old) →
      insertGo keyOf k v (Tree.node l nk nv r h) =
        ((rebalanceNode (Tree.node l nk nv r2 h)).1,
          (rebalanceNode (Tree.node l nk nv r2 h)).2, old)) := by
  obtain ⟨hbst, _, hbal, hok, _⟩ := hinv
  obtain ⟨t2, flag, heq, hgood2, _, _, _, _, _⟩ :=
    insertGo_notfound keyOf k v m.root habs ⟨hok, hbal⟩ hbst
  refine ⟨?_, ?_, ?_, ?_, ?_, ?_⟩
  · simp only [Map.insert, heq]
    exact hgood2.2
  · simp only [Map.insert, heq]
    exact hgood2.1
  · intro l r nk nv h l2 old hlt hrec
    simp only [insertGo, if_pos hlt, hrec]
  · intro l r nk nv h l2 old hlt hrec
    simp only [insertGo, if_pos hlt, hrec]
  · intro l r nk nv h r2 old hgt hrec
    simp only [insertGo, if_neg (not_lt_of_gt hgt), if_pos hgt, hrec]
  · intro l r nk nv h r2 old hgt hrec
    simp only [insertGo, if_neg (not_lt_of_gt hgt), if_pos hgt, hrec]

/-- Witness for C6: inserting into the empty map. -/
theorem c6_witness :
    BalancedT (((Map.empty : Map Nat Nat).insert (fun n : Nat => n) 5 7).1).root :=
  (c6_rebalance_once (fun n : Nat => n) (Map.empty : Map Nat Nat) 5 7
    (by decide) rfl).1

/-- Claim C7: inserting a key that compares equal to a stored entry returns
the previous value, leaves `len()` unchanged, and changes no tree structure
— the node skeleton (keys, shape, stored heights) is identical, no node is
created or moved and no rotation occurs; only the stored value of that
entry becomes the new one. -/
theorem c7_duplicate_insert (keyOf : K → α) (m : Map K V) (k k2 : K) (v v2 : V)
    (hfound : m.getKeyValue keyOf (keyOf k2) = some (k, v)) :
    (m.insert keyOf k2 v2).2 = some v ∧
    ((m.insert keyOf k2 v2).1).len = m.len ∧
    shape ((m.insert keyOf k2 v2).1).root = shape m.root ∧
    ∃ A B, toList m.root = A ++ (k, v) :: B ∧
      toList ((m.insert keyOf k2 v2).1).root = A ++ (k, v2) :: B := by
  rw [Map.getKeyValue] at hfound
  obtain ⟨t2, heq, hsh, A, B, hA, hB⟩ := insertGo_found keyOf k2 v2 m.root k v hfound
  refine ⟨?_, ?_, ?_, A, B, hA, ?_⟩ <;>
    simp only [Map.insert, Map.len, heq, Option.isSome_some, if_pos]
  · exact hsh
  · exact hB

/-- Witness for C7 on a singleton map. -/
theorem c7_witness :
    ((⟨Tree.node Tree.leaf 1 10 Tree.leaf 0, 1⟩ : Map Nat Nat).insert
      (fun n : Nat => n) 1 20).2 = some 10 :=
  (c7_duplicate_insert (fun n : Nat => n)
    (⟨Tree.node Tree.leaf 1 10 Tree.leaf 0, 1⟩ : Map Nat Nat) 1 1 10 20 rfl).1

/-- Claim C8: a key absent from the map is a value-level absence, not an
error: `get` returns `None`, `get_key_value` returns `None`, and `remove`
returns `None` leaving the map completely unchanged (same entries, same
`len()`). -/
theorem c8_absent_key (keyOf : K → α) (m : Map K V) (q : α)
    (habs : ∀ p ∈ toList m.root, keyOf p.1 ≠ q) :
    m.get keyOf q = none ∧ m.getKeyValue keyOf q = none ∧
    m.remove keyOf q = (m, none) := by
  have hf : find keyOf q m.root = none := find_eq_none_of_not_mem_keys keyOf q m.root habs
  refine ⟨?_, ?_, ?_⟩
  · simp [Map.get, hf]
  · simp [Map.getKeyValue, hf]
  · simp [Map.remove, removeGo_notfound keyOf q m.root hf]

/-- Witness for C8 on a singleton map and a missing key. -/
theorem c8_witness :
    (⟨Tree.node Tree.leaf 1 10 Tree.leaf 0, 1⟩ : Map Nat Nat).remove
      (fun n : Nat => n) 2 =
      ((⟨Tree.node Tree.leaf 1 10 Tree.leaf 0, 1⟩ : Map Nat Nat), none) :=
  (c8_absent_key (fun n : Nat => n)
    (⟨Tree.node Tree.leaf 1 10 Tree.leaf 0, 1⟩ : Map Nat Nat) 2 (by decide)).2.2

/-- Claim C9: an insert that lands on an occupied position keeps the
*stored* key object: afterwards `get_key_value` returns the originally
stored key (with the new value), and the newly supplied key object is
discarded — it occurs nowhere in the tree when it is distinguishable from
the stored one. -/
theorem c9_occupied_insert_keeps_key (keyOf : K → α) (m : Map K V) (k0 k2 : K)
    (v v2 : V) (hb : BST keyOf m.root)
    (hfound : m.getKeyValue keyOf (keyOf k2) = some (k0, v)) :
    ((m.insert keyOf k2 v2).1).getKeyValue keyOf (keyOf k2) = some (k0, v2) ∧
    (k2 ≠ k0 → ∀ w, (k2, w) ∉ toList ((m.insert keyOf k2 v2).1).root) := by
  rw [Map.getKeyValue] at hfound
  have hkey : keyOf k0 = keyOf k2 :=
    (find_some_mem keyOf (keyOf k2) m.root (k0, v) hfound).2
  obtain ⟨t2, heq, hsh, A, B, hA, hB⟩ := insertGo_found keyOf k2 v2 m.root k0 v hfound
  have hroot : ((m.insert keyOf k2 v2).1).root = t2 := by
    simp [Map.insert, heq]
  have hbst2 : BST keyOf t2 := bst_of_toList_replace keyOf m.root t2 A B k0 v v2 hb hA hB
  have hmem2 : (k0, v2) ∈ toList t2 := by
    rw [hB]
    simp
  constructor
  · rw [Map.getKeyValue, hroot, ← hkey]
    exact find_mem_unique keyOf t2 (k0, v2) hbst2 hmem2
  · intro hne w hwmem
    rw [hroot, hB] at hwmem
    have hnd : ((toList m.root).map fun p => keyOf p.1).Nodup :=
      bst_keys_nodup keyOf m.root hb
    rw [hA] at hnd
    simp only [List.map_append, List.map_cons, List.nodup_append, List.nodup_cons] at hnd
    rcases List.mem_append.1 hwmem with hw | hw
    · have hmemA : keyOf k2 ∈ A.map fun p => keyOf p.1 :=
        List.mem_map_of_mem (fun p => keyOf p.1) hw
      rw [← hkey] at hmemA
      exact hnd.2.2 hmemA (List.mem_cons_self _ _)
    · rcases List.mem_cons.1 hw with heqkv | hw2
      · have : k2 = k0 := congrArg Prod.fst heqkv
        exact hne this
      · have hmemB : keyOf k2 ∈ B.map fun p => keyOf p.1 :=
          List.mem_map_of_mem (fun p => keyOf p.1) hw2
        rw [← hkey] at hmemB
        exact hnd.2.1.1 hmemB

/-- Witness for C9 with keys carrying a payload the comparison ignores. -/
theorem c9_witness :
    (((⟨Tree.node Tree.leaf (1, 7) 10 Tree.leaf 0, 1⟩ : Map (Nat × Nat) Nat).insert
        Prod.fst (1, 9) 20).1).getKeyValue Prod.fst ((1, 9) : Nat × Nat).1 =
      some ((1, 7), 20) :=
  (c9_occupied_insert_keeps_key Prod.fst
    (⟨Tree.node Tree.leaf (1, 7) 10 Tree.leaf 0, 1⟩ : Map (Nat × Nat) Nat)
    (1, 7) (1, 9) 10 20 (by decide) rfl).1

/-- Claim C10: when the heads of the two sorted inputs compare equal, both
union and intersection yield the *left-hand* element, exactly once (it does
not recur in the remainder), advance both inputs, and drop the right-hand
element entirely whenever it is distinguishable from the left one. -/
theorem c10_ties_left (keyOf : K → α) (a b : K) (xs ys : List K)
    (hsx : ((a :: xs).map keyOf).Sorted (· < ·))
    (hsy : ((b :: ys).map keyOf).Sorted (· < ·))
    (hab : ¬keyOf a < keyOf b) (hba : ¬keyOf b < keyOf a) :
    unionList keyOf (a :: xs) (b :: ys) = a :: unionList keyOf xs ys ∧
    interList keyOf (a :: xs) (b :: ys) = a :: interList keyOf xs ys ∧
    a ∉ unionList keyOf xs ys ∧
    a ∉ interList keyOf xs ys ∧
    (b ≠ a → b ∉ unionList keyOf (a :: xs) (b :: ys)) ∧
    (b ≠ a → b ∉ interList keyOf (a :: xs) (b :: ys)) := by
  have hk : keyOf a = keyOf b := le_antisymm (not_lt.1 hba) (not_lt.1 hab)
  simp only [List.map_cons, List.sorted_cons] at hsx hsy
  have hUeq : unionList keyOf (a :: xs) (b :: ys) = a :: unionList keyOf xs ys := by
    rw [unionList, if_neg hab, if_neg hba]
  have hIeq : interList keyOf (a :: xs) (b :: ys) = a :: interList keyOf xs ys := by
    rw [interList, if_neg hab, if_neg hba]
  have hnotxs : ∀ x : K, keyOf x ≤ keyOf a → x ∉ xs := fun x hle hx =>
    absurd (hsx.1 (keyOf x) (List.mem_map_of_mem _ hx)) (not_lt.2 hle)
  have hnotys : ∀ x : K, keyOf x ≤ keyOf b → x ∉ ys := fun x hle hx =>
    absurd (hsy.1 (keyOf x) (List.mem_map_of_mem _ hx)) (not_lt.2 hle)
  have haU : a ∉ unionList keyOf xs ys := by
    intro hmem
    rcases unionList_subset keyOf xs ys a hmem with h | h
    · exact hnotxs a (le_refl _) h
    · exact hnotys a (le_of_eq hk) h
  have haI : a ∉ interList keyOf xs ys := by
    intro hmem
    rw [interList_eq_filter keyOf xs ys hsx.2 hsy.2] at hmem
    exact hnotxs a (le_refl _) (List.mem_of_mem_filter hmem)
  refine ⟨hUeq, hIeq, haU, haI, ?_, ?_⟩
  · intro hne hmem
    rw [hUeq] at hmem
    rcases List.mem_cons.1 hmem with h | h
    · exact hne h
    · rcases unionList_subset keyOf xs ys b h with h2 | h2
      · exact hnotxs b (le_of_eq hk.symm) h2
      · exact hnotys b (le_refl _) h2
  · intro hne hmem
    rw [hIeq] at hmem
    rcases List.mem_cons.1 hmem with h | h
    · exact hne h
    · rw [interList_eq_filter keyOf xs ys hsx.2 hsy.2] at h
      exact hnotxs b (le_of_eq hk.symm) (List.mem_of_mem_filter h)

/-- Witness for C10 with equal-comparing but distinguishable elements. -/
theorem c10_witness :
    unionList (Prod.fst : Nat × Nat → Nat) [(1, 0), (2, 0)] [(1, 1)] =
      (1, 0) :: unionList Prod.fst [(2, 0)] [] :=
  (c10_ties_left Prod.fst (1, 0) (1, 1) [(2, 0)] []
    (by decide) (by decide) (by decide) (by decide)).1

end Avl
